import Mathlib

/- Verification of the XPath pattern-generalization engine of this
   repository.  The main implementation is the content script in
   src/unnamed/part_003 (functions parseXPathToSegments, parseSegment,
   compareXPaths, detect2DPattern, generateAbsoluteXPath, generateXPath,
   findMatchingElements, collectElementsWithWildcard, updatePattern,
   handleElementClick, handleElementDoubleClick, normalizeText,
   extractData, extract2DData); the secondary pairwise analyzer is in
   src/ChromeExtention/xpath_picker_ver2/contentScript.js
   (analyzeXPathPair, collectElementsByPattern).
   JavaScript strings are modelled as lists of characters. -/

abbrev Str := List Char

/-- Convenience coercion from Lean string literals to the character-list model. -/
def str (s : String) : Str := s.data

/-- Characters allowed in the tag part of the segment regex
`^([a-zA-Z0-9_-]+)(?:\[(\d+)\])?$` of parseSegment. -/
def tagChar (c : Char) : Bool := c.isAlpha || c.isDigit || c = '_' || c = '-'

/-- Decimal digit parsing, modelling `parseInt(s, 10)` on all-digit strings. -/
def strToNat (s : Str) : Nat := s.foldl (fun a c => a * 10 + (c.toNat - 48)) 0

/-- The decimal digit characters used when the source interpolates a number
into a template string. -/
def digitChar (d : Nat) : Char :=
  match d with
  | 0 => '0' | 1 => '1' | 2 => '2' | 3 => '3' | 4 => '4'
  | 5 => '5' | 6 => '6' | 7 => '7' | 8 => '8' | _ => '9'

/-- Fuel-based big-endian decimal rendering (structural recursion so that the
kernel can evaluate it). -/
def natToStrAux : Nat → Nat → Str
  | 0, _ => []
  | fuel + 1, n => if n = 0 then [] else natToStrAux fuel (n / 10) ++ [digitChar (n % 10)]

/-- Decimal rendering of a natural number, modelling the template
interpolation `${index}` in the source. -/
def natToStr (n : Nat) : Str := if n = 0 then ['0'] else natToStrAux n n

/-- Split a character list at every slash (every chunk between slashes,
including empty chunks). -/
def splitOnSlash : Str → List Str
  | [] => [[]]
  | c :: rest =>
    if c = '/' then [] :: splitOnSlash rest
    else
      match splitOnSlash rest with
      | [] => [[c]]
      | s :: ss => (c :: s) :: ss

/-- parseXPathToSegments from part_003: strip leading slashes, split on
slashes, keep the nonempty chunks. -/
def parseXPathToSegments (xpath : Str) : List Str :=
  ((splitOnSlash (xpath.dropWhile (· = '/'))).filter (fun s => s.length > 0))

/-- Does the second list start with the first one? -/
def listStartsWith : Str → Str → Bool
  | [], _ => true
  | _ :: _, [] => false
  | p :: ps, c :: cs => p = c && listStartsWith ps cs

/-- Substring test, modelling `String.prototype.includes`. -/
def containsSub (s pat : Str) : Bool :=
  match s with
  | [] => listStartsWith pat []
  | _ :: rest => listStartsWith pat s || containsSub rest pat

/-- Replace the first occurrence of `pat` by `rep`, modelling
`String.prototype.replace` with a string pattern. -/
def replaceFirst (s pat rep : Str) : Str :=
  match s with
  | [] => if listStartsWith pat [] then rep else []
  | c :: rest =>
    if listStartsWith pat s then rep ++ s.drop pat.length
    else c :: replaceFirst rest pat rep

/-- A parsed path segment of part_003: `{ tag, index }`, with the optional
`id` field added by the id-reference branch of parseSegment. -/
structure Seg where
  tag : Str
  index : Option Nat
  id : Option Str
deriving DecidableEq, Repr

/-- The anchored regex `^([a-zA-Z0-9_-]+)(?:\[(\d+)\])?$` of parseSegment:
returns the tag and the optional bracketed decimal index. -/
def parseSegmentCore (s : Str) : Option (Str × Option Nat) :=
  let tagPart := s.takeWhile tagChar
  let rest := s.dropWhile tagChar
  if tagPart = [] then none
  else
    match rest with
    | [] => some (tagPart, none)
    | '[' :: r2 =>
      let ds := r2.takeWhile Char.isDigit
      if ds = [] then none
      else
        match r2.dropWhile Char.isDigit with
        | [']'] => some (tagPart, some (strToNat ds))
        | _ => none
    | _ => none

/-- The anchored id-reference regex of parseSegment. -/
def parseIdSegment (s : Str) : Option Str :=
  match s with
  | '*' :: '[' :: '@' :: 'i' :: 'd' :: '=' :: '"' :: rest =>
    let idPart := rest.takeWhile (· ≠ '"')
    if idPart = [] then none
    else
      match rest.dropWhile (· ≠ '"') with
      | ['"', ']'] => some idPart
      | _ => none
  | _ => none

/-- parseSegment from part_003.  Tries `tag[n]` / bare `tag`, then the
id-reference form, and otherwise falls back to treating the whole segment
string as a tag with no index (the source has no failure path). -/
def parseSegment (s : Str) : Seg :=
  match parseSegmentCore s with
  | some (t, i) => ⟨t, i, none⟩
  | none =>
    match parseIdSegment s with
    | some i => ⟨str "*", none, some i⟩
    | none => ⟨s, none, none⟩

/-- Result record of compareXPaths: `{ pattern, variableIndices, isValid }`. -/
structure CmpRes where
  pattern : Option Str
  variableIndices : List Nat
  isValid : Bool
deriving DecidableEq, Repr

/-- Renders a fixed pattern segment the way compareXPaths and detect2DPattern
push literal segments: `tag[n]` when an index is present, bare `tag` otherwise. -/
def renderFixedSeg (sg : Seg) : Str :=
  match sg.index with
  | some k => sg.tag ++ '[' :: natToStr k ++ [']']
  | none => sg.tag

/-- The wildcard rendering `tag[*]` used by the pattern builders. -/
def renderWildcardSeg (sg : Seg) : Str := sg.tag ++ str "[*]"

/-- The position-by-position loop of compareXPaths, carrying the current
position.  Returns `none` on a tag mismatch, otherwise the built pattern
segments and the recorded wildcard positions. -/
def cmpLoop : List Str → List Str → Nat → Option (List Str × List Nat)
  | [], [], _ => some ([], [])
  | s1 :: r1, s2 :: r2, i =>
    let p1 := parseSegment s1
    let p2 := parseSegment s2
    if p1.tag ≠ p2.tag then none
    else
      match cmpLoop r1 r2 (i + 1) with
      | none => none
      | some (segs, vars) =>
        if p1.index ≠ p2.index ∧ p1.index ≠ none ∧ p2.index ≠ none then
          some (renderWildcardSeg p1 :: segs, i :: vars)
        else
          some (renderFixedSeg p1 :: segs, vars)
  | _, _, _ => none

/-- compareXPaths from part_003. -/
def compareXPaths (xpath1 xpath2 : Str) : CmpRes :=
  let segments1 := parseXPathToSegments xpath1
  let segments2 := parseXPathToSegments xpath2
  if segments1.length ≠ segments2.length then ⟨none, [], false⟩
  else
    match cmpLoop segments1 segments2 0 with
    | none => ⟨none, [], false⟩
    | some (patternSegments, variableIndices) =>
      if variableIndices = [] then ⟨none, [], false⟩
      else ⟨some ('/' :: List.intercalate (str "/") patternSegments), variableIndices, true⟩

/-- Result record of detect2DPattern. -/
structure D2Res where
  pattern : Option Str
  variableIndices : List Nat
  isValid : Bool
  is2D : Bool
deriving DecidableEq, Repr

/-- The position-by-position loop of detect2DPattern.  Returns `none` on a
tag mismatch; otherwise the rebuilt segments, the newly recorded wildcard
positions (appended after the existing ones by the caller) and the
`newVariableFound` flag. -/
def d2Loop (exVars : List Nat) : List Str → List Str → Nat → Option (List Str × List Nat × Bool)
  | [], [], _ => some ([], [], false)
  | s1 :: r1, s2 :: r2, i =>
    let p1 := parseSegment s1
    let p2 := parseSegment s2
    if p1.tag ≠ p2.tag then none
    else
      match d2Loop exVars r1 r2 (i + 1) with
      | none => none
      | some (segs, newVars, found) =>
        if exVars.contains i then
          some (renderWildcardSeg p1 :: segs, newVars, found)
        else if p1.index ≠ none ∧ p2.index ≠ none ∧ p1.index ≠ p2.index then
          some (renderWildcardSeg p1 :: segs, i :: newVars, true)
        else
          some (renderFixedSeg p1 :: segs, newVars, found)
  | _, _, _ => none

/-- detect2DPattern from part_003: extends an existing pattern string with a
newly selected absolute path. -/
def detect2DPattern (existingPattern : Str) (existingVariableIndices : List Nat)
    (newXPath : Str) : D2Res :=
  let patternSegments := parseXPathToSegments existingPattern
  let newSegments := parseXPathToSegments newXPath
  if patternSegments.length ≠ newSegments.length then ⟨none, [], false, false⟩
  else
    match d2Loop existingVariableIndices patternSegments newSegments 0 with
    | none => ⟨none, [], false, false⟩
    | some (resultSegments, newVars, newVariableFound) =>
      let resultVariableIndices := existingVariableIndices ++ newVars
      if ¬newVariableFound then
        ⟨some existingPattern, existingVariableIndices, true, resultVariableIndices.length ≥ 2⟩
      else
        ⟨some ('/' :: List.intercalate (str "/") resultSegments), resultVariableIndices, true,
          resultVariableIndices.length ≥ 2⟩

/- ===================== The document tree model ===================== -/

/-- A DOM element: tag name, `id` attribute (the empty string when absent,
as in JavaScript), text content (modelling the `textContent` accessor), and
the ordered list of element children. -/
inductive Dom where
  | mk (tag : Str) (idAttr : Str) (text : Str) (children : List Dom)
deriving Repr

def Dom.tagOf : Dom → Str
  | .mk t _ _ _ => t

def Dom.idOf : Dom → Str
  | .mk _ i _ _ => i

def Dom.textOf : Dom → Str
  | .mk _ _ x _ => x

def Dom.childrenOf : Dom → List Dom
  | .mk _ _ _ cs => cs

/-- `tagName.toLowerCase()` of an element. -/
def tagLower (d : Dom) : Str := d.tagOf.map Char.toLower

/-- A document: its root element (`document.documentElement`, the `html`
element).  `document.body` is the first child of the root whose lowercased
tag is `body`, as in HTML. -/
structure Doc where
  html : Dom

/-- A position of an element inside the document tree: the list of child
indices from the root element down to the element. -/
abbrev Pos := List Nat

/-- The subtree of `d` at position `p`, if the position is valid. -/
def subtreeAt : Pos → Dom → Option Dom
  | [], d => some d
  | k :: p, d =>
    match d.childrenOf[k]? with
    | some c => subtreeAt p c
    | none => none

/-- The index of `document.body` among the children of the root element. -/
def bodyIdx (doc : Doc) : Option Nat :=
  doc.html.childrenOf.findIdx? (fun c => tagLower c = str "body")

/-- The position of `document.body`, when a body element exists. -/
def bodyPos (doc : Doc) : Option Pos := (bodyIdx doc).map (fun i => [i])

/-- The chain of nodes from `d` down along position `p` (inclusive at both
ends); used to state per-path hygiene hypotheses decidably. -/
def chainNodes : Pos → Dom → List Dom
  | [], d => [d]
  | k :: p, d =>
    d :: (match d.childrenOf[k]? with
          | some c => chainNodes p c
          | none => [])

/- Boolean structural equality on trees (the model of JavaScript reference
equality between element handles; two handles are the same element exactly
when they denote the same tree position, and distinct positions of our
concrete documents carry structurally distinct subtrees where it matters). -/
mutual
def domBEq : Dom → Dom → Bool
  | .mk t1 i1 x1 cs1, .mk t2 i2 x2 cs2 =>
    t1 = t2 && i1 = i2 && x1 = x2 && domListBEq cs1 cs2
def domListBEq : List Dom → List Dom → Bool
  | [], [] => true
  | c :: cs, d :: ds => domBEq c d && domListBEq cs ds
  | _, _ => false
end

/-- An element reference: either attached (a position inside the document
root tree) or detached (a position inside a free-standing fragment whose
topmost node has `parentNode === null`). -/
structure ERef where
  attached : Bool
  frag : Dom
  pos : Pos
deriving Repr

/-- Model of JavaScript `===` between element references. -/
def erefBEq (a b : ERef) : Bool :=
  a.attached = b.attached && domBEq a.frag b.frag && decide (a.pos = b.pos)

/-- Number of earlier siblings with the same lowercased tag; the loop of
generateAbsoluteXPath counts the matching siblings that precede the element
among `element.parentNode.children`. -/
def countSameTagBefore (siblings : List Dom) (k : Nat) (tn : Str) : Nat :=
  ((siblings.take k).filter (fun s => tagLower s = tn)).length

/-- generateAbsoluteXPath from part_003, on a reversed position (so that the
parent step is structural).  `tree` is the root of the tree the element
lives in: the document root when `attached`, the fragment root otherwise.
The source checks `element === document.body`, then
`!element || !element.parentNode || element === document.documentElement`,
and otherwise recurses on the parent and appends `/tag[index]`. -/
def genAbsRev (doc : Doc) (tree : Dom) (attached : Bool) : List Nat → Str
  | [] =>
    if attached ∧ some ([] : Pos) = bodyPos doc then str "/html/body"
    else if attached then str "/html"
    else []
  | k :: rp' =>
    if attached ∧ some (k :: rp' : List Nat).reverse = bodyPos doc then str "/html/body"
    else
      match subtreeAt rp'.reverse tree with
      | none => []
      | some parent =>
        match parent.childrenOf[k]? with
        | none => []
        | some el =>
          let tn := tagLower el
          let index := 1 + countSameTagBefore parent.childrenOf k tn
          genAbsRev doc tree attached rp' ++ '/' :: (tn ++ '[' :: natToStr index ++ [']'])

/-- generateAbsoluteXPath on an element reference. -/
def generateAbsoluteXPath (doc : Doc) (e : ERef) : Str :=
  genAbsRev doc e.frag e.attached e.pos.reverse

/-- The test `element.id && !element.id.match(/^\d/)` of generateXPath. -/
def idUsable (idv : Str) : Bool :=
  match idv with
  | [] => false
  | c :: _ => !c.isDigit

/-- generateXPath from part_003, on a reversed position: like
generateAbsoluteXPath but short-circuiting to `//*[@id="..."]` when the
element carries an id attribute that does not start with a digit. -/
def genXPathRev (doc : Doc) (tree : Dom) (attached : Bool) : List Nat → Str
  | [] =>
    match subtreeAt ([] : Pos) tree with
    | none => []
    | some el =>
      if idUsable el.idOf then str "//*[@id=\"" ++ el.idOf ++ str "\"]"
      else if attached ∧ some ([] : Pos) = bodyPos doc then str "/html/body"
      else if attached then str "/html"
      else []
  | k :: rp' =>
    match subtreeAt (k :: rp' : List Nat).reverse tree with
    | none => []
    | some el =>
      if idUsable el.idOf then str "//*[@id=\"" ++ el.idOf ++ str "\"]"
      else if attached ∧ some (k :: rp' : List Nat).reverse = bodyPos doc then str "/html/body"
      else
        match subtreeAt rp'.reverse tree with
        | none => []
        | some parent =>
          match parent.childrenOf[k]? with
          | none => []
          | some el' =>
            let tn := tagLower el'
            let index := 1 + countSameTagBefore parent.childrenOf k tn
            genXPathRev doc tree attached rp' ++ '/' :: (tn ++ '[' :: natToStr index ++ [']'])

/-- generateXPath on an element reference. -/
def generateXPath (doc : Doc) (e : ERef) : Str :=
  genXPathRev doc e.frag e.attached e.pos.reverse

/- ===================== Pattern evaluation ===================== -/

/-- An evaluation context: `none` is the `document` node itself, `some p`
the element at position `p` of the document root tree. -/
abbrev Ctx := Option Pos

/-- The children of a context, with their positions.  `document.children`
contains exactly the root element. -/
def ctxChildren (doc : Doc) : Ctx → List (Pos × Dom)
  | none => [([], doc.html)]
  | some p =>
    match subtreeAt p doc.html with
    | none => []
    | some d => d.childrenOf.enum.map (fun jc => (p ++ [jc.1], jc.2))

/-- Scan a child list for the `target`-th (1-based) child whose lowercased
tag equals `tn`, carrying the running count of matches seen so far. -/
def nthMatchingFrom (tn : Str) (target : Nat) : List (Pos × Dom) → Nat → Option Pos
  | [], _ => none
  | qc :: rest, count =>
    if tagLower qc.2 = tn then
      if count + 1 = target then some qc.1
      else nthMatchingFrom tn target rest (count + 1)
    else nthMatchingFrom tn target rest count

/-- Modelled from the spec: one fixed step of `document.evaluate` on a
wildcard-free location path — descend into the `index`-th same-tag child,
a missing index selecting the first matching child (the generated paths
only omit the index on the unique `html` and `body` steps). -/
def evalStep (doc : Doc) (ctx : Ctx) (sg : Seg) : Option Pos :=
  let target := match sg.index with
                | some k => k
                | none => 1
  nthMatchingFrom sg.tag target (ctxChildren doc ctx) 0

/-- Modelled from the spec: fixed-segment descent of `document.evaluate`,
returning the element reached after all segments (and `none` if any
segment fails to resolve). -/
def evalPathCtx (doc : Doc) : List Seg → Ctx → Option Pos
  | [], ctx => ctx
  | sg :: rest, ctx =>
    match evalStep doc ctx sg with
    | some p => evalPathCtx doc rest (some p)
    | none => none

/-- Modelled from the spec: `document.evaluate` with
`ORDERED_NODE_SNAPSHOT_TYPE` on an absolute wildcard-free path of the form
generated by generateAbsoluteXPath, collected into an element list (the
empty-path case models the thrown-and-caught evaluation error). -/
def evaluateAbsoluteXPath (doc : Doc) (xpath : Str) : List Pos :=
  let segs := (parseXPathToSegments xpath).map parseSegment
  match segs with
  | [] => []
  | _ =>
    match evalPathCtx doc segs none with
    | some p => [p]
    | none => []

/-- collectElementsWithWildcard from part_003.  The source recurses on a
segment index into a fixed segment array; the embedding recurses on the
list of remaining segments, which is the same recursion. -/
def collectElementsWithWildcard (doc : Doc) : List Str → Ctx → List Pos
  | [], ctx =>
    match ctx with
    | none => []
    | some p => [p]
  | segment :: rest, ctx =>
    let parsed := parseSegment (replaceFirst segment (str "[*]") (str "[1]"))
    let isWildcard := containsSub segment (str "[*]")
    if segment = str "html" ∧ ctx = none then
      collectElementsWithWildcard doc rest (some [])
    else if segment = str "body" ∧ ctx = some ([] : Pos) then
      match bodyPos doc with
      | some bp => collectElementsWithWildcard doc rest (some bp)
      | none => []
    else
      let children := ctxChildren doc ctx
      if isWildcard then
        (children.filter (fun qc => tagLower qc.2 = parsed.tag)).flatMap
          (fun qc => collectElementsWithWildcard doc rest (some qc.1))
      else
        let targetIndex := match parsed.index with
                           | none => 1
                           | some 0 => 1
                           | some (k + 1) => k + 1
        match nthMatchingFrom parsed.tag targetIndex children 0 with
        | some q => collectElementsWithWildcard doc rest (some q)
        | none => []

/-- findMatchingElements from part_003: wildcard-free patterns go through
`document.evaluate`, patterns with a wildcard through the recursive
collector.  A null or empty pattern string yields no elements. -/
def findMatchingElements (doc : Doc) (pattern : Option Str) : List Pos :=
  match pattern with
  | none => []
  | some pat =>
    if pat = [] then []
    else
      let segments := parseXPathToSegments pat
      let wildcardIndices :=
        (segments.enum.filter (fun isg => containsSub isg.2 (str "[*]"))).map (fun isg => isg.1)
      if wildcardIndices.length = 0 then evaluateAbsoluteXPath doc pat
      else collectElementsWithWildcard doc segments none

/- ===================== Selection engine state ===================== -/

/-- An attached element reference for a position of the document tree. -/
def attachedRef (doc : Doc) (p : Pos) : ERef := ⟨true, doc.html, p⟩

/-- The `detectedPattern` record of part_003:
`{ type, xpath, variableIndices }`. -/
structure DetPattern where
  ptype : Str
  xpath : Option Str
  variableIndices : List Nat
deriving DecidableEq, Repr

/-- The module-level mutable state of part_003 that the pattern engine
updates: `selectedElements` (element plus its generateXPath string),
`detectedPattern` and `matchedElements`. -/
structure PState where
  selectedElements : List (ERef × Str)
  detectedPattern : Option DetPattern
  matchedElements : List ERef
deriving Repr

/-- The 3-or-more branch tail of updatePattern: compare the latest absolute
path against the current pattern; on success install the extended pattern,
on failure keep the previously stored `detectedPattern` and refresh the
matches from the current pattern.  (The source reads `currentPattern.xpath`,
which is a string in every reachable state; `getD []` models that read.) -/
def updatePatternExtend (doc : Doc) (sel : List (ERef × Str)) (absoluteXPaths : List Str)
    (oldDetected : Option DetPattern) (cp : DetPattern) : PState :=
  let latestXPath := absoluteXPaths.getLast?.getD []
  let result2D := detect2DPattern (cp.xpath.getD []) cp.variableIndices latestXPath
  if result2D.isValid then
    ⟨sel,
     some ⟨(if result2D.is2D then str "2d" else str "1d"), result2D.pattern,
           result2D.variableIndices⟩,
     (findMatchingElements doc result2D.pattern).map (attachedRef doc)⟩
  else
    ⟨sel, oldDetected, (findMatchingElements doc cp.xpath).map (attachedRef doc)⟩

/-- updatePattern from part_003. -/
def updatePattern (doc : Doc) (st : PState) : PState :=
  match st.selectedElements with
  | [] => ⟨[], none, []⟩
  | [se] => ⟨[se], some ⟨str "single", some se.2, []⟩, [se.1]⟩
  | se1 :: se2 :: rest =>
    let sel := se1 :: se2 :: rest
    let absoluteXPaths := sel.map (fun se => generateAbsoluteXPath doc se.1)
    if rest.isEmpty then
      let result := compareXPaths (absoluteXPaths.getD 0 []) (absoluteXPaths.getD 1 [])
      if result.isValid then
        ⟨sel,
         some ⟨(if result.variableIndices.length ≥ 2 then str "2d" else str "1d"),
               result.pattern, result.variableIndices⟩,
         (findMatchingElements doc result.pattern).map (attachedRef doc)⟩
      else
        ⟨sel, some ⟨str "multiple", none, []⟩, sel.map (fun se => se.1)⟩
    else
      let currentPatternOpt :=
        match st.detectedPattern with
        | some p => if p.ptype = str "multiple" then none else some p
        | none => none
      match currentPatternOpt with
      | some cp => updatePatternExtend doc sel absoluteXPaths st.detectedPattern cp
      | none =>
        let initialResult := compareXPaths (absoluteXPaths.getD 0 []) (absoluteXPaths.getD 1 [])
        if initialResult.isValid then
          updatePatternExtend doc sel absoluteXPaths st.detectedPattern
            ⟨(if initialResult.variableIndices.length ≥ 2 then str "2d" else str "1d"),
             initialResult.pattern, initialResult.variableIndices⟩
        else
          ⟨sel, some ⟨str "multiple", none, []⟩, sel.map (fun se => se.1)⟩

/-- handleElementClick from part_003 (highlight and storage side effects
omitted): ignore an already selected element, otherwise append the element
with its generateXPath string and update the pattern. -/
def handleElementClick (doc : Doc) (st : PState) (element : ERef) : PState :=
  if (st.selectedElements.findIdx? (fun se => erefBEq se.1 element)).isSome then st
  else
    updatePattern doc
      ⟨st.selectedElements ++ [(element, generateXPath doc element)],
       st.detectedPattern, st.matchedElements⟩

/-- handleElementDoubleClick from part_003 (highlight and storage side
effects omitted): remove the element from the selection when present (the
`splice(index, 1)` call) and update the pattern; otherwise do nothing. -/
def handleElementDoubleClick (doc : Doc) (st : PState) (element : ERef) : PState :=
  match st.selectedElements.findIdx? (fun se => erefBEq se.1 element) with
  | none => st
  | some i =>
    updatePattern doc ⟨st.selectedElements.eraseIdx i, st.detectedPattern, st.matchedElements⟩

/- ===================== Text extraction ===================== -/

/-- The character class `[\r\n\t]` of the first normalizeText pass. -/
def isCrNlTab (c : Char) : Bool := c = '\r' || c = '\n' || c = '\t'

/-- The regex class `\s` restricted to the ASCII whitespace the source texts
can contain. -/
def isJsWs (c : Char) : Bool :=
  c = ' ' || c = '\t' || c = '\n' || c = '\r' || c = '\x0b' || c = '\x0c'

/- Replace every maximal nonempty run of characters matching `p` by a single
space, modelling `replace(/X+/g, " ")`. -/
mutual
def collapseRuns (p : Char → Bool) : Str → Str
  | [] => []
  | c :: rest => if p c then ' ' :: collapseInRun p rest else c :: collapseRuns p rest
def collapseInRun (p : Char → Bool) : Str → Str
  | [] => []
  | c :: rest => if p c then collapseInRun p rest else c :: collapseRuns p rest
end

/-- `String.prototype.trim`. -/
def trimWs (s : Str) : Str := ((s.dropWhile isJsWs).reverse.dropWhile isJsWs).reverse

/-- normalizeText from part_003: collapse `[\r\n\t]+` to a space, collapse
`\s+` to a space, trim both ends. -/
def normalizeText (text : Str) : Str :=
  trimWs (collapseRuns isJsWs (collapseRuns isCrNlTab text))

/-- The `textContent` of an element reference (modelled as the text stored
on the node). -/
def erefText (e : ERef) : Str :=
  match subtreeAt e.pos e.frag with
  | some d => d.textOf
  | none => []

/-- A `{ colIndex, text }` cell pushed by extract2DData. -/
structure Cell where
  colIndex : Nat
  text : Str
deriving DecidableEq, Repr

/-- Insert before the first element of greater-or-equal key (together with
sortByKey this is a stable ascending sort, the behavior of
`Array.prototype.sort` with the comparator `(a, b) => a - b`). -/
def insertLeBy {α : Type} (key : α → Nat) (x : α) : List α → List α
  | [] => [x]
  | y :: ys => if key x ≤ key y then x :: y :: ys else y :: insertLeBy key x ys

/-- Stable ascending sort by a natural-number key. -/
def sortByKey {α : Type} (key : α → Nat) : List α → List α
  | [] => []
  | x :: xs => insertLeBy key x (sortByKey key xs)

/-- Model of the insertion-ordered `Map` used by extract2DData: setting an
existing key appends the cell to its bucket in place, a new key is appended
at the end. -/
def rowsInsert (rows : List (Nat × List Cell)) (k : Nat) (cell : Cell) :
    List (Nat × List Cell) :=
  match rows with
  | [] => [(k, [cell])]
  | (k0, cells) :: rest =>
    if k0 = k then (k0, cells ++ [cell]) :: rest
    else (k0, cells) :: rowsInsert rest k cell

/-- `Map.get` on the association-list model. -/
def rowsLookup (rows : List (Nat × List Cell)) (k : Nat) : List Cell :=
  match rows with
  | [] => []
  | (k0, cells) :: rest => if k0 = k then cells else rowsLookup rest k

/-- The key extract2DData reads at variable position `v` of the absolute
path of an element: `parseSegment(elementSegments[v]).index || 0` (null and
0 both give 0; reading past the end is modelled by `getD`, unreachable for
engine-produced patterns). -/
def varKeyOf (doc : Doc) (v : Nat) (e : ERef) : Nat :=
  ((parseSegment ((parseXPathToSegments (generateAbsoluteXPath doc e)).getD v [])).index).getD 0

/-- One iteration of the matchedElements.forEach loop of extract2DData:
skip the element when its absolute path has a different segment count than
the pattern, otherwise push its cell into the bucket of its row key. -/
def extract2DStep (doc : Doc) (segCount v0 v1 : Nat)
    (rows : List (Nat × List Cell)) (e : ERef) : List (Nat × List Cell) :=
  if (parseXPathToSegments (generateAbsoluteXPath doc e)).length ≠ segCount then rows
  else rowsInsert rows (varKeyOf doc v0 e) ⟨varKeyOf doc v1 e, normalizeText (erefText e)⟩

/-- The body of extract2DData from part_003, after its early-return guard:
bucket the matched elements by the parsed index at the first variable
position, order each bucket by the parsed index at the second variable
position, order the rows by row key, and map every cell to its normalized
text. -/
def extract2DCore (doc : Doc) (patXpath : Str) (varIndices : List Nat)
    (matched : List ERef) : List (List Str) :=
  let segments := parseXPathToSegments patXpath
  match varIndices with
  | v0 :: v1 :: _ =>
    let rowElements := matched.foldl (extract2DStep doc segments.length v0 v1) []
    let sortedRowKeys := sortByKey id (rowElements.map (fun r => r.1))
    sortedRowKeys.map (fun k => (sortByKey Cell.colIndex (rowsLookup rowElements k)).map Cell.text)
  | _ => []

/-- The extraction output: a flat list of texts or a two-dimensional grid
(the `patternInfo` metadata of the source is bookkeeping over the same data
and is omitted). -/
inductive ExtractedData where
  | oneD (texts : List Str)
  | twoD (grid : List (List Str))
deriving DecidableEq, Repr

/-- extractData from part_003.  When `detectedPattern.type` is `2d` with
fewer than two variable positions the source recurses forever between
extractData and extract2DData; that state is unreachable for
engine-produced patterns, and the embedding returns the selection texts
there. -/
def extractData (doc : Doc) (st : PState) : ExtractedData :=
  let selectionTexts := st.selectedElements.map (fun se => normalizeText (erefText se.1))
  match st.detectedPattern with
  | none => .oneD selectionTexts
  | some dp =>
    if st.matchedElements.length = 0 then .oneD selectionTexts
    else if dp.ptype = str "2d" then
      if dp.variableIndices.length < 2 then .oneD selectionTexts
      else .twoD (extract2DCore doc (dp.xpath.getD []) dp.variableIndices st.matchedElements)
    else .oneD (st.matchedElements.map (fun e => normalizeText (erefText e)))

/- ===================== The xpath_picker_ver2 analyzer ===================== -/

/-- The segment scan of analyzeXPathPair: the regex `/\/([^\/]+)/g` captures
every maximal nonempty chunk that follows a slash. -/
def ver2Segments (xpath : Str) : List Str :=
  ((splitOnSlash xpath).drop 1).filter (fun s => s ≠ [])

/-- The greedy anchored regex `^(.+)\[(\d+)\]$` of analyzeXPathPair. -/
def parseTagIdx (s : Str) : Option (Str × Nat) :=
  match s.reverse with
  | ']' :: rest =>
    let rds := rest.takeWhile Char.isDigit
    if rds = [] then none
    else
      match rest.dropWhile Char.isDigit with
      | '[' :: rt => if rt = [] then none else some (rt.reverse, strToNat rds.reverse)
      | _ => none
  | _ => none

/-- The result record of analyzeXPathPair. -/
structure PatternInfo where
  pattern : Str
  variableIndex : Nat
  baseSegments : List Str
  variableTag : Str
  suffixSegments : List Str
deriving DecidableEq, Repr

/-- The comparison loop of analyzeXPathPair: equal segments are copied,
segments that both match `tag[n]` with the same tag become `tag[*]` and
record the position (the source keeps the last such position), anything
else aborts. -/
def axpLoop : List Str → List Str → Nat → Option (List Str × Option Nat)
  | [], [], _ => some ([], none)
  | s1 :: r1, s2 :: r2, i =>
    match axpLoop r1 r2 (i + 1) with
    | none => none
    | some (psegs, vtail) =>
      if s1 = s2 then some (s1 :: psegs, vtail)
      else
        match parseTagIdx s1, parseTagIdx s2 with
        | some (t1, _), some (t2, _) =>
          if t1 = t2 then some ((t1 ++ str "[*]") :: psegs, some (vtail.getD i))
          else none
        | _, _ => none
  | _, _, _ => none

/-- analyzeXPathPair from xpath_picker_ver2/contentScript.js. -/
def analyzeXPathPair (xpath1 xpath2 : Str) : Option PatternInfo :=
  let segments1 := ver2Segments xpath1
  let segments2 := ver2Segments xpath2
  if segments1.length ≠ segments2.length then none
  else
    match axpLoop segments1 segments2 0 with
    | none => none
    | some (psegs, vOpt) =>
      match vOpt with
      | none => none
      | some vi =>
        some ⟨'/' :: List.intercalate (str "/") psegs, vi, segments1.take vi,
              ((parseTagIdx (segments1.getD vi [])).map (fun ti => ti.1)).getD [],
              segments1.drop (vi + 1)⟩

/-- The XPath string collectElementsByPattern rebuilds for a concrete index. -/
def buildPatternXPath (info : PatternInfo) (index : Nat) : Str :=
  let baseXPath := '/' :: List.intercalate (str "/") info.baseSegments
  let variablePart := '/' :: (info.variableTag ++ '[' :: natToStr index ++ [']'])
  let suffixXPath :=
    if info.suffixSegments.length > 0 then '/' :: List.intercalate (str "/") info.suffixSegments
    else []
  baseXPath ++ variablePart ++ suffixXPath

/-- Modelled from the spec: `document.evaluate` with
`FIRST_ORDERED_NODE_TYPE` (getElementByXPath of xpath_picker_ver2). -/
def getElementByXPath (doc : Doc) (xpath : Str) : Option Pos :=
  (evaluateAbsoluteXPath doc xpath).head?

/-- The while loop of collectElementsByPattern: try successive indices,
collecting elements until one is missing or the fuel (the remaining
allowed iterations) runs out. -/
def collectByPatternAux (doc : Doc) (info : PatternInfo) : Nat → Nat → List Pos
  | 0, _ => []
  | fuel + 1, index =>
    match getElementByXPath doc (buildPatternXPath info index) with
    | some el => el :: collectByPatternAux doc info fuel (index + 1)
    | none => []

/-- collectElementsByPattern from xpath_picker_ver2/contentScript.js:
indices start at 1 and the loop runs `maxIterations = 1000` times at most
(the "無限ループ防止" cap in the source). -/
def collectElementsByPattern (doc : Doc) (info : PatternInfo) : List Pos :=
  collectByPatternAux doc info 1000 1

/- ===================== Derived notions used in theorem statements ===================== -/

/-- Does position `j` of two segment lists satisfy the wildcard condition of
compareXPaths: parsed indices differ and are both non-null? -/
def wildAt (s1 s2 : List Str) (j : Nat) : Bool :=
  decide ((parseSegment (s1.getD j [])).index ≠ (parseSegment (s2.getD j [])).index) &&
  decide ((parseSegment (s1.getD j [])).index ≠ none) &&
  decide ((parseSegment (s2.getD j [])).index ≠ none)

/-- The pattern segment compareXPaths builds at position `j`: the wildcard
rendering at wildcard positions, the first path segment copied as a fixed
literal everywhere else. -/
def cmpRenderAt (s1 s2 : List Str) (j : Nat) : Str :=
  if wildAt s1 s2 j then renderWildcardSeg (parseSegment (s1.getD j []))
  else renderFixedSeg (parseSegment (s1.getD j []))

/- ===================== Concrete documents for witnesses ===================== -/

/-- A childless element with a tag and a text. -/
def mkElT (t txt : String) : Dom := .mk (str t) [] (str txt) []

/-- An element with a tag and children. -/
def mkEl (t : String) (cs : List Dom) : Dom := .mk (str t) [] [] cs

/-- A concrete document: a three-row, two-column table. -/
def tableDoc : Doc := ⟨mkEl "html" [mkEl "body" [mkEl "table" [
  mkEl "tr" [mkElT "td" "a", mkElT "td" "b"],
  mkEl "tr" [mkElT "td" "c", mkElT "td" "d"],
  mkEl "tr" [mkElT "td" "e", mkElT "td" "f"]]]]⟩

/-- Cell (row 1, column 1) of tableDoc. -/
def tdA : ERef := attachedRef tableDoc [0, 0, 0, 0]

/-- Cell (row 1, column 2) of tableDoc. -/
def tdB : ERef := attachedRef tableDoc [0, 0, 0, 1]

/-- Cell (row 2, column 1) of tableDoc. -/
def tdC : ERef := attachedRef tableDoc [0, 0, 1, 0]

/-- Cell (row 3, column 1) of tableDoc. -/
def tdD : ERef := attachedRef tableDoc [0, 0, 2, 0]

/-- The engine state after clicking cells A then B of tableDoc. -/
def stAB : PState :=
  handleElementClick tableDoc (handleElementClick tableDoc ⟨[], none, []⟩ tdA) tdB

/-- The engine state after clicking cells A, B, C. -/
def stABC : PState := handleElementClick tableDoc stAB tdC

/-- The engine state after clicking cells A, B, C, D. -/
def stABCD : PState := handleElementClick tableDoc stABC tdD

/-- The engine state after then double-clicking (deselecting) cell B. -/
def stAfterDeselect : PState := handleElementDoubleClick tableDoc stABCD tdB

/-- A small document with one paragraph. -/
def paraDoc : Doc := ⟨mkEl "html" [mkEl "body" [mkElT "p" "hello"]]⟩

/-- An attached reference to the paragraph of paraDoc. -/
def paraRef : ERef := attachedRef paraDoc [0, 0]

/-- A detached element: a div fragment root with no parent. -/
def detachedDiv : ERef := ⟨false, .mk (str "div") [] (str "zz") [], []⟩

/-- A detached fragment with one child, for exercising fragment-relative
paths. -/
def divFrag : Dom := .mk (str "div") [] [] [mkElT "span" "s"]

/-- A selection state holding an attached element and a detached element. -/
def stDetached : PState :=
  ⟨[(paraRef, generateXPath paraDoc paraRef),
    (detachedDiv, generateXPath paraDoc detachedDiv)], none, []⟩

/-- The distinct values of a list in first-occurrence order, given the
values already seen. -/
def keysInOrder (seen : List Nat) : List Nat → List Nat
  | [] => []
  | k :: ks => if k ∈ seen then keysInOrder seen ks else k :: keysInOrder (seen ++ [k]) ks

/-- The two-dimensional grid as the spec describes it: the distinct row keys
(the value at the first wildcard position) in ascending order; inside each
row bucket the matched nodes with that row key ordered by the value at the
second wildcard position ascending (stable); each cell the normalized text
of its node. -/
def specGrid2D (doc : Doc) (v0 v1 : Nat) (matched : List ERef) : List (List Str) :=
  (sortByKey id (keysInOrder [] (matched.map (varKeyOf doc v0)))).map (fun r =>
    (sortByKey (varKeyOf doc v1) (matched.filter (fun e => varKeyOf doc v0 e = r))).map
      (fun e => normalizeText (erefText e)))

/-- The two-axis wildcard pattern over tableDoc. -/
def pat2D : Str := str "/html/body/table[1]/tr[*]/td[*]"

/-- The matched set of pat2D over tableDoc, as element references. -/
def matched2D : List ERef :=
  (findMatchingElements tableDoc (some pat2D)).map (attachedRef tableDoc)

/-- Strict lexicographic order on positions: the document pre-order among
equal-depth nodes. -/
def posLtB : Pos → Pos → Bool
  | [], [] => false
  | [], _ :: _ => true
  | _ :: _, [] => false
  | a :: as, b :: bs => a < b || (a = b && posLtB as bs)

/- Number of nodes of a tree / forest. -/
mutual
def domSize : Dom → Nat
  | .mk _ _ _ cs => 1 + domListSize cs
def domListSize : List Dom → Nat
  | [] => 0
  | c :: cs => domSize c + domListSize cs
end

/-- Number of nodes reachable from an evaluation context (1 for an invalid
position, which has no children). -/
def ctxSize (doc : Doc) : Ctx → Nat
  | none => 1 + domSize doc.html
  | some p =>
    match subtreeAt p doc.html with
    | some d => domSize d
    | none => 1

/-- A document whose body has 1001 identical div children. -/
def capDoc : Doc := ⟨mkEl "html" [mkEl "body" (List.replicate 1001 (mkElT "div" "x"))]⟩

/-- The pattern info the ver2 analyzer derives from the first two divs of
capDoc. -/
def capInfo : PatternInfo :=
  ⟨str "/html/body/div[*]", 2, [str "html", str "body"], str "div", []⟩

/-- A tag whose lowercased form is accepted by the segment regex: nonempty
and made of tag characters only. -/
def cleanTagB (t : Str) : Bool := !t.isEmpty && t.all (fun c => tagChar c.toLower)

/- Every tag of the tree is clean (decidably checkable on concrete
documents). -/
mutual
def cleanDom : Dom → Bool
  | .mk t _ _ cs => cleanTagB t && cleanDomList cs
def cleanDomList : List Dom → Bool
  | [] => true
  | c :: cs => cleanDom c && cleanDomList cs
end

/- ===================== Helper lemmas ===================== -/

theorem all_takeWhile {α : Type} (p : α → Bool) (l : List α) :
    (l.takeWhile p).all p = true := by
  induction l with
  | nil => rfl
  | cons x xs ih =>
    by_cases h : p x = true
    · simp [List.takeWhile_cons, h, ih]
    · simp [List.takeWhile_cons, Bool.eq_false_iff.mpr h]

theorem takeWhile_eq_self_of_all {α : Type} {p : α → Bool} {l : List α}
    (h : l.all p = true) : l.takeWhile p = l := by
  induction l with
  | nil => rfl
  | cons x xs ih =>
    simp only [List.all_cons, Bool.and_eq_true] at h
    simp [List.takeWhile_cons, h.1, ih h.2]

theorem dropWhile_eq_nil_of_all {α : Type} {p : α → Bool} {l : List α}
    (h : l.all p = true) : l.dropWhile p = [] := by
  induction l with
  | nil => rfl
  | cons x xs ih =>
    simp only [List.all_cons, Bool.and_eq_true] at h
    simp [List.dropWhile_cons, h.1, ih h.2]

theorem takeWhile_all_append {α : Type} {p : α → Bool} {a : List α} {c : α} {b : List α}
    (ha : a.all p = true) (hc : p c = false) :
    (a ++ c :: b).takeWhile p = a := by
  induction a with
  | nil => simp [List.takeWhile_cons, hc]
  | cons x xs ih =>
    simp only [List.all_cons, Bool.and_eq_true] at ha
    simp [List.takeWhile_cons, ha.1, ih ha.2]

theorem dropWhile_all_append {α : Type} {p : α → Bool} {a : List α} {c : α} {b : List α}
    (ha : a.all p = true) (hc : p c = false) :
    (a ++ c :: b).dropWhile p = c :: b := by
  induction a with
  | nil => simp [List.dropWhile_cons, hc]
  | cons x xs ih =>
    simp only [List.all_cons, Bool.and_eq_true] at ha
    simp [List.dropWhile_cons, ha.1, ih ha.2]

/- ===================== C8: parseSegment totality ===================== -/

/-- The three well-formed segment shapes named by the spec: `tag[n]`, a bare
`tag`, and a stable-id-reference token. -/
def WellFormedSegment (s : Str) : Prop :=
  (s ≠ [] ∧ s.all tagChar = true) ∨
  (∃ t ds, s = t ++ '[' :: (ds ++ [']']) ∧ t ≠ [] ∧ t.all tagChar = true ∧
    ds ≠ [] ∧ ds.all Char.isDigit = true) ∨
  (∃ idv, s = str "*[@id=\"" ++ (idv ++ str "\"]") ∧ idv ≠ [] ∧
    idv.all (fun c => c ≠ '"') = true)

theorem wellFormedSegment_iff (s : Str) :
    WellFormedSegment s ↔
      ((parseSegmentCore s).isSome = true ∨ (parseIdSegment s).isSome = true) := by
  constructor
  · rintro (⟨hne, hall⟩ | ⟨t, ds, rfl, htne, hta, hdsne, hdsd⟩ | ⟨idv, rfl, hine, hiq⟩)
    · left
      simp only [parseSegmentCore, takeWhile_eq_self_of_all hall, dropWhile_eq_nil_of_all hall,
        if_neg hne]
      rfl
    · left
      have h1 : (t ++ '[' :: (ds ++ [']'])).takeWhile tagChar = t :=
        takeWhile_all_append hta (by decide)
      have h2 : (t ++ '[' :: (ds ++ [']'])).dropWhile tagChar = '[' :: (ds ++ [']']) :=
        dropWhile_all_append hta (by decide)
      have h3 : (ds ++ [']']).takeWhile Char.isDigit = ds := by
        have := takeWhile_all_append (c := ']') (b := ([] : Str)) hdsd (by decide)
        simpa using this
      have h4 : (ds ++ [']']).dropWhile Char.isDigit = [']'] := by
        have := dropWhile_all_append (c := ']') (b := ([] : Str)) hdsd (by decide)
        simpa using this
      simp only [parseSegmentCore, h1, h2, if_neg htne, h3, h4, if_neg hdsne]
      rfl
    · right
      have hpre : str "*[@id=\"" ++ (idv ++ str "\"]") =
          '*' :: '[' :: '@' :: 'i' :: 'd' :: '=' :: '"' :: (idv ++ ['"', ']']) := rfl
      rw [hpre]
      have h1 : (idv ++ ['"', ']']).takeWhile (· ≠ '"') = idv := by
        have := takeWhile_all_append (c := '"') (b := ([']'] : Str)) hiq (by decide)
        simpa using this
      have h2 : (idv ++ ['"', ']']).dropWhile (· ≠ '"') = ['"', ']'] := by
        have := dropWhile_all_append (c := '"') (b := ([']'] : Str)) hiq (by decide)
        simpa using this
      simp only [parseIdSegment, h1, h2, if_neg hine]
      rfl
  · rintro (h | h)
    · rw [Option.isSome_iff_exists] at h
      obtain ⟨ti, hti⟩ := h
      have hsplit : s.takeWhile tagChar ++ s.dropWhile tagChar = s :=
        List.takeWhile_append_dropWhile tagChar s
      unfold parseSegmentCore at hti
      dsimp only at hti
      split_ifs at hti with hne
      split at hti
      · next heq =>
          left
          rw [heq, List.append_nil] at hsplit
          exact ⟨by rw [← hsplit]; exact hne, by rw [← hsplit]; exact all_takeWhile _ _⟩
      · next r2 heq =>
          right; left
          split_ifs at hti with hds
          split at hti
          · next heq3 =>
              have hsplit2 : r2.takeWhile Char.isDigit ++ r2.dropWhile Char.isDigit = r2 :=
                List.takeWhile_append_dropWhile Char.isDigit r2
              rw [heq3] at hsplit2
              have hgoal : s = s.takeWhile tagChar ++ '[' :: (r2.takeWhile Char.isDigit ++ [']']) := by
                conv_lhs => rw [← hsplit, heq, ← hsplit2]
              exact ⟨s.takeWhile tagChar, r2.takeWhile Char.isDigit,
                hgoal, hne, all_takeWhile _ _, hds, all_takeWhile _ _⟩
          · exact absurd hti (by simp)
      · exact absurd hti (by simp)
    · rw [Option.isSome_iff_exists] at h
      obtain ⟨idv, hid⟩ := h
      unfold parseIdSegment at hid
      split at hid
      · next rest =>
          right; right
          dsimp only at hid
          split_ifs at hid with hine
          split at hid
          · next heq2 =>
              have hsplit : rest.takeWhile (fun c => decide (c ≠ '"')) ++
                  rest.dropWhile (fun c => decide (c ≠ '"')) = rest :=
                List.takeWhile_append_dropWhile _ rest
              rw [heq2] at hsplit
              have hgoal : '*' :: '[' :: '@' :: 'i' :: 'd' :: '=' :: '"' :: rest =
                  str "*[@id=\"" ++ (rest.takeWhile (fun c => decide (c ≠ '"')) ++ str "\"]") := by
                conv_lhs => rw [← hsplit]
                rfl
              exact ⟨rest.takeWhile (fun c => decide (c ≠ '"')), hgoal, hine, all_takeWhile _ _⟩
          · exact absurd hid (by simp)
      · exact absurd hid (by simp)

/-- C8 (amended): parseSegment is total — on an input that is not of the
form `tag[n]`, a bare tag, or a stable-id-reference token, it returns the
whole string as a tag with a null index instead of failing. -/
theorem parseSegment_fallback_spec (s : Str) (h : ¬ WellFormedSegment s) :
    parseSegment s = ⟨s, none, none⟩ := by
  have hboth : ¬ ((parseSegmentCore s).isSome = true ∨ (parseIdSegment s).isSome = true) :=
    fun hc => h ((wellFormedSegment_iff s).mpr hc)
  push_neg at hboth
  have h1 : parseSegmentCore s = none := Option.not_isSome_iff_eq_none.mp (by simpa using hboth.1)
  have h2 : parseIdSegment s = none := Option.not_isSome_iff_eq_none.mp (by simpa using hboth.2)
  simp [parseSegment, h1, h2]

/-- Witness: parseSegment_fallback_spec applied at the malformed input `div[`. -/
theorem parseSegment_fallback_spec_witness :
    parseSegment (str "div[") = ⟨str "div[", none, none⟩ :=
  parseSegment_fallback_spec (str "div[")
    (fun h => absurd ((wellFormedSegment_iff _).mp h) (by decide))

/-- C8 counterexample: on the malformed segment `div[` parseSegment returns a
segment (the fallback of the source) rather than failing, and the caller
does not abort pattern work for a pair of paths containing it —
compareXPaths still produces a valid pattern. -/
theorem parseSegment_total_counterexample :
    parseSegment (str "div[") = ⟨str "div[", none, none⟩ ∧
    ¬ WellFormedSegment (str "div[") ∧
    (compareXPaths (str "/div[/a[1]") (str "/div[/a[2]")).isValid = true := by
  refine ⟨by decide, fun h => absurd ((wellFormedSegment_iff _).mp h) (by decide), by decide⟩

/-- C3: wildcard promotion is monotonic — whenever detect2DPattern succeeds,
every wildcard position of the existing pattern is still among the wildcard
positions of the result. -/
theorem detect2DPattern_monotonic (pat : Str) (exVars : List Nat) (newX : Str)
    (hv : (detect2DPattern pat exVars newX).isValid = true) :
    ∀ j ∈ exVars, j ∈ (detect2DPattern pat exVars newX).variableIndices := by
  intro j hj
  unfold detect2DPattern at hv ⊢
  dsimp only at hv ⊢
  by_cases hlen : (parseXPathToSegments pat).length ≠ (parseXPathToSegments newX).length
  · rw [if_pos hlen] at hv
    exact absurd hv (by simp)
  · rw [if_neg hlen] at hv ⊢
    rcases hd : d2Loop exVars (parseXPathToSegments pat) (parseXPathToSegments newX) 0 with
      _ | ⟨segs, newVars, found⟩
    · rw [hd] at hv
      exact absurd hv (by simp)
    · dsimp only at hv ⊢
      by_cases hf : ¬ found = true
      · rw [if_pos hf]
        exact hj
      · rw [if_neg hf]
        exact List.mem_append_left _ hj

/-- Witness: detect2DPattern_monotonic applied at a concrete pattern with an
existing wildcard position. -/
theorem detect2DPattern_monotonic_witness :
    0 ∈ (detect2DPattern (str "/a/b[2]") [0] (str "/a/b[3]")).variableIndices :=
  detect2DPattern_monotonic (str "/a/b[2]") [0] (str "/a/b[3]") (by decide) 0 (by decide)

/- ===================== C7: extend failure keeps the pattern ===================== -/

theorem d2Loop_none_of_mismatch (exVars : List Nat) (l1 : List Str) :
    ∀ (l2 : List Str) (i j : Nat), j < l1.length → j < l2.length →
    (parseSegment (l1.getD j [])).tag ≠ (parseSegment (l2.getD j [])).tag →
    d2Loop exVars l1 l2 i = none := by
  induction l1 with
  | nil => intro l2 i j hj1 _ _; simp at hj1
  | cons a r1 ih =>
    intro l2 i j hj1 hj2 hne
    cases l2 with
    | nil => simp at hj2
    | cons b r2 =>
      by_cases htag : (parseSegment a).tag ≠ (parseSegment b).tag
      · unfold d2Loop
        rw [if_pos htag]
      · cases j with
        | zero =>
          rw [List.getD_cons_zero, List.getD_cons_zero] at hne
          exact absurd hne htag
        | succ j' =>
          have hrec := ih r2 (i + 1) j' (by simpa using hj1) (by simpa using hj2)
            (by simpa [List.getD_cons_succ] using hne)
          unfold d2Loop
          rw [if_neg htag, hrec]

/-- When three or more nodes are selected, the held pattern is not multiple,
and the extension against the last absolute path fails, updatePattern keeps
the stored pattern unchanged. -/
theorem updatePattern_extendFail_keeps (doc : Doc) (st : PState) (p : DetPattern)
    (hlen : 3 ≤ st.selectedElements.length)
    (hdet : st.detectedPattern = some p)
    (hmul : p.ptype ≠ str "multiple")
    (h2d : (detect2DPattern (p.xpath.getD []) p.variableIndices
      ((st.selectedElements.map (fun se => generateAbsoluteXPath doc se.1)).getLast?.getD
        [])).isValid = false) :
    (updatePattern doc st).detectedPattern = some p := by
  obtain ⟨sel, detP, matched⟩ := st
  dsimp only at hlen hdet h2d ⊢
  match sel, hlen with
  | a :: b :: c :: rest', _ =>
    subst hdet
    unfold updatePattern
    dsimp only
    rw [if_neg (by simp : ¬ (c :: rest' : List (ERef × Str)).isEmpty = true)]
    rw [if_neg hmul]
    unfold updatePatternExtend
    dsimp only
    rw [if_neg (by
      simp only [List.map_cons, List.getLast?_cons_cons] at h2d ⊢
      simp [h2d])]

/-- C7: a tag mismatch at any position makes detect2DPattern return the
invalid result, and the caller updatePattern then leaves the previously
held pattern unchanged (the new path is treated as noise, not as a fatal
error). -/
theorem extend_tagMismatch_preserves_pattern :
    (∀ (pat : Str) (exVars : List Nat) (newX : Str) (j : Nat),
      j < (parseXPathToSegments pat).length → j < (parseXPathToSegments newX).length →
      (parseSegment ((parseXPathToSegments pat).getD j [])).tag ≠
        (parseSegment ((parseXPathToSegments newX).getD j [])).tag →
      (detect2DPattern pat exVars newX).isValid = false) ∧
    (∀ (doc : Doc) (st : PState) (p : DetPattern),
      3 ≤ st.selectedElements.length →
      st.detectedPattern = some p →
      p.ptype ≠ str "multiple" →
      (detect2DPattern (p.xpath.getD []) p.variableIndices
        ((st.selectedElements.map (fun se => generateAbsoluteXPath doc se.1)).getLast?.getD [])).isValid
        = false →
      (updatePattern doc st).detectedPattern = some p) := by
  constructor
  · intro pat exVars newX j hj1 hj2 hne
    unfold detect2DPattern
    dsimp only
    by_cases hlen : (parseXPathToSegments pat).length ≠ (parseXPathToSegments newX).length
    · rw [if_pos hlen]
    · rw [if_neg hlen, d2Loop_none_of_mismatch exVars _ _ 0 j hj1 hj2 hne]
  · exact fun doc st p hlen hdet hmul h2d =>
      updatePattern_extendFail_keeps doc st p hlen hdet hmul h2d

/-- Witness: a concrete tag mismatch makes detect2DPattern invalid, and
updatePattern on the three-element table state keeps the held pattern. -/
theorem extend_tagMismatch_preserves_pattern_witness :
    (detect2DPattern (str "/a/b[1]") [] (str "/a/c[1]")).isValid = false ∧
    (updatePattern tableDoc stABC).detectedPattern =
      some ⟨str "1d", some (str "/html/body/table[1]/tr[1]/td[*]"), [4]⟩ :=
  ⟨extend_tagMismatch_preserves_pattern.1 (str "/a/b[1]") [] (str "/a/c[1]") 1
      (by decide) (by decide) (by decide),
   extend_tagMismatch_preserves_pattern.2 tableDoc stABC
      ⟨str "1d", some (str "/html/body/table[1]/tr[1]/td[*]"), [4]⟩
      (by decide) (by decide) (by decide) (by decide)⟩

/- ===================== C1 and C10: compareXPaths ===================== -/

theorem wildAt_cons_succ (a b : Str) (r1 r2 : List Str) (j : Nat) :
    wildAt (a :: r1) (b :: r2) (j + 1) = wildAt r1 r2 j := by
  simp [wildAt, List.getD_cons_succ]

theorem cmpRenderAt_cons_succ (a b : Str) (r1 r2 : List Str) (j : Nat) :
    cmpRenderAt (a :: r1) (b :: r2) (j + 1) = cmpRenderAt r1 r2 j := by
  simp [cmpRenderAt, wildAt_cons_succ, List.getD_cons_succ]

theorem cmpLoop_none_of_mismatch (l1 : List Str) :
    ∀ (l2 : List Str) (i j : Nat), j < l1.length → j < l2.length →
    (parseSegment (l1.getD j [])).tag ≠ (parseSegment (l2.getD j [])).tag →
    cmpLoop l1 l2 i = none := by
  induction l1 with
  | nil => intro l2 i j hj1 _ _; simp at hj1
  | cons a r1 ih =>
    intro l2 i j hj1 hj2 hne
    cases l2 with
    | nil => simp at hj2
    | cons b r2 =>
      by_cases htag : (parseSegment a).tag ≠ (parseSegment b).tag
      · unfold cmpLoop
        rw [if_pos htag]
      · cases j with
        | zero =>
          rw [List.getD_cons_zero, List.getD_cons_zero] at hne
          exact absurd hne htag
        | succ j' =>
          have hrec := ih r2 (i + 1) j' (by simpa using hj1) (by simpa using hj2)
            (by simpa [List.getD_cons_succ] using hne)
          unfold cmpLoop
          rw [if_neg htag, hrec]

theorem cmpLoop_agree (l1 : List Str) :
    ∀ (l2 : List Str) (i : Nat), l1.length = l2.length →
    (∀ j, j < l1.length →
      (parseSegment (l1.getD j [])).tag = (parseSegment (l2.getD j [])).tag) →
    cmpLoop l1 l2 i =
      some ((List.range l1.length).map (cmpRenderAt l1 l2),
            ((List.range l1.length).filter (wildAt l1 l2)).map (fun j => i + j)) := by
  induction l1 with
  | nil =>
    intro l2 i hlen _
    cases l2 with
    | nil => simp [cmpLoop]
    | cons b r2 => simp at hlen
  | cons a r1 ih =>
    intro l2 i hlen htags
    cases l2 with
    | nil => simp at hlen
    | cons b r2 =>
      have htag0 : (parseSegment a).tag = (parseSegment b).tag := by
        have := htags 0 (by simp)
        simpa using this
      have hrec := ih r2 (i + 1) (by simpa using hlen)
        (fun j hj => by
          have := htags (j + 1) (by simpa using hj)
          simpa [List.getD_cons_succ] using this)
      unfold cmpLoop
      rw [if_neg (by simpa using htag0), hrec]
      dsimp only
      have hrange : List.range (a :: r1).length = 0 :: (List.range r1.length).map Nat.succ :=
        by simpa using List.range_succ_eq_map r1.length
      rw [hrange]
      have hmapren : ((List.range r1.length).map Nat.succ).map (cmpRenderAt (a :: r1) (b :: r2)) =
          (List.range r1.length).map (cmpRenderAt r1 r2) := by
        rw [List.map_map]
        exact List.map_congr_left (fun j _ => cmpRenderAt_cons_succ a b r1 r2 j)
      have hfiltw : ((List.range r1.length).map Nat.succ).filter (wildAt (a :: r1) (b :: r2)) =
          ((List.range r1.length).filter (wildAt r1 r2)).map Nat.succ := by
        rw [List.filter_map]
        congr 1
      by_cases hw : (parseSegment a).index ≠ (parseSegment b).index ∧
          (parseSegment a).index ≠ none ∧ (parseSegment b).index ≠ none
      · rw [if_pos hw]
        have hw0 : wildAt (a :: r1) (b :: r2) 0 = true := by
          simp only [wildAt, List.getD_cons_zero]
          simp [hw.1, hw.2.1, hw.2.2]
        have hren0 : cmpRenderAt (a :: r1) (b :: r2) 0 = renderWildcardSeg (parseSegment a) := by
          simp [cmpRenderAt, hw0, List.getD_cons_zero]
        simp only [List.map_cons, List.filter_cons, hw0, hren0, hmapren, hfiltw, if_pos]
        refine congrArg some (Prod.ext rfl ?_)
        simp only [List.map_cons, List.map_map]
        refine congrArg (fun l => i :: l) ?_
        exact List.map_congr_left (fun j _ => by simp [Function.comp, Nat.succ_eq_add_one]; omega)
      · rw [if_neg hw]
        have hw0 : wildAt (a :: r1) (b :: r2) 0 = false := by
          simp only [wildAt, List.getD_cons_zero]
          by_cases h1 : (parseSegment a).index = (parseSegment b).index
          · simp [h1]
          · by_cases h2 : (parseSegment a).index = none
            · simp [h2]
            · by_cases h3 : (parseSegment b).index = none
              · simp [h3]
              · exact absurd ⟨h1, h2, h3⟩ hw
        have hren0 : cmpRenderAt (a :: r1) (b :: r2) 0 = renderFixedSeg (parseSegment a) := by
          simp [cmpRenderAt, hw0, List.getD_cons_zero]
        simp only [List.map_cons, List.filter_cons, hw0, hren0, hmapren, hfiltw]
        refine congrArg some (Prod.ext rfl ?_)
        simp only [Bool.false_eq_true, if_false, List.map_map]
        exact List.map_congr_left (fun j _ => by simp [Function.comp, Nat.succ_eq_add_one]; omega)

/-- Shared characterization: on equal-length segment lists whose parsed tags
agree everywhere, compareXPaths is determined by the set of wildcard
positions. -/
theorem compareXPaths_agree_eq (x1 x2 : Str)
    (hlen : (parseXPathToSegments x1).length = (parseXPathToSegments x2).length)
    (htags : ∀ k, k < (parseXPathToSegments x1).length →
      (parseSegment ((parseXPathToSegments x1).getD k [])).tag =
        (parseSegment ((parseXPathToSegments x2).getD k [])).tag) :
    compareXPaths x1 x2 =
      if (List.range (parseXPathToSegments x1).length).filter
           (wildAt (parseXPathToSegments x1) (parseXPathToSegments x2)) = [] then
        ⟨none, [], false⟩
      else
        ⟨some ('/' :: List.intercalate (str "/")
            ((List.range (parseXPathToSegments x1).length).map
              (cmpRenderAt (parseXPathToSegments x1) (parseXPathToSegments x2)))),
         (List.range (parseXPathToSegments x1).length).filter
           (wildAt (parseXPathToSegments x1) (parseXPathToSegments x2)),
         true⟩ := by
  unfold compareXPaths
  dsimp only
  rw [if_neg (fun h => h hlen), cmpLoop_agree _ _ 0 hlen htags]
  dsimp only
  simp only [Nat.zero_add]
  rw [List.map_id']

/-- C1: compareXPaths on canonical paths — NotComparable when the segment
counts differ, when a parsed tag differs at any aligned position, or when no
position satisfies the wildcard condition (in particular on a self-compare);
otherwise a valid pattern whose wildcard positions are exactly the positions
with differing non-null indices, all other positions copied from the first
path as fixed literals. -/
theorem compareXPaths_spec (x1 x2 : Str) :
    (compareXPaths x1 x1 = ⟨none, [], false⟩) ∧
    ((parseXPathToSegments x1).length ≠ (parseXPathToSegments x2).length →
      compareXPaths x1 x2 = ⟨none, [], false⟩) ∧
    (∀ j, j < (parseXPathToSegments x1).length → j < (parseXPathToSegments x2).length →
      (parseSegment ((parseXPathToSegments x1).getD j [])).tag ≠
        (parseSegment ((parseXPathToSegments x2).getD j [])).tag →
      compareXPaths x1 x2 = ⟨none, [], false⟩) ∧
    ((parseXPathToSegments x1).length = (parseXPathToSegments x2).length →
      (∀ j, j < (parseXPathToSegments x1).length →
        (parseSegment ((parseXPathToSegments x1).getD j [])).tag =
          (parseSegment ((parseXPathToSegments x2).getD j [])).tag) →
      ((List.range (parseXPathToSegments x1).length).filter
          (wildAt (parseXPathToSegments x1) (parseXPathToSegments x2)) = [] →
        compareXPaths x1 x2 = ⟨none, [], false⟩) ∧
      ((List.range (parseXPathToSegments x1).length).filter
          (wildAt (parseXPathToSegments x1) (parseXPathToSegments x2)) ≠ [] →
        compareXPaths x1 x2 =
          ⟨some ('/' :: List.intercalate (str "/")
              ((List.range (parseXPathToSegments x1).length).map
                (cmpRenderAt (parseXPathToSegments x1) (parseXPathToSegments x2)))),
           (List.range (parseXPathToSegments x1).length).filter
             (wildAt (parseXPathToSegments x1) (parseXPathToSegments x2)),
           true⟩)) := by
  refine ⟨?_, ?_, ?_, ?_⟩
  · rw [compareXPaths_agree_eq x1 x1 rfl (fun k _ => rfl)]
    rw [if_pos (List.filter_eq_nil_iff.mpr (fun j _ => by simp [wildAt]))]
  · intro hlen
    unfold compareXPaths
    dsimp only
    rw [if_pos hlen]
  · intro j hj1 hj2 hne
    unfold compareXPaths
    dsimp only
    by_cases hlen : (parseXPathToSegments x1).length ≠ (parseXPathToSegments x2).length
    · rw [if_pos hlen]
    · rw [if_neg hlen, cmpLoop_none_of_mismatch _ _ 0 j hj1 hj2 hne]
  · intro hlen htags
    rw [compareXPaths_agree_eq x1 x2 hlen htags]
    constructor
    · intro hfe
      rw [if_pos hfe]
    · intro hfne
      rw [if_neg hfne]

/-- Witness: compareXPaths_spec applied to two concrete sibling paths. -/
theorem compareXPaths_spec_witness :
    compareXPaths (str "/html/body/div[1]") (str "/html/body/div[2]") =
      ⟨some (str "/html/body/div[*]"), [2], true⟩ :=
  (((compareXPaths_spec (str "/html/body/div[1]") (str "/html/body/div[2]")).2.2.2
      (by decide) (by decide)).2 (by decide)).trans (by decide)

/-- C10: at a position where the tags agree but exactly one of the two
indices is null, compareXPaths neither marks the position wildcard nor
fails for that reason: the first path segment is copied as a fixed literal. -/
theorem compareXPaths_oneNullIndex_fixed (x1 x2 : Str) (j : Nat)
    (hlen : (parseXPathToSegments x1).length = (parseXPathToSegments x2).length)
    (htags : ∀ k, k < (parseXPathToSegments x1).length →
      (parseSegment ((parseXPathToSegments x1).getD k [])).tag =
        (parseSegment ((parseXPathToSegments x2).getD k [])).tag)
    (hj : j < (parseXPathToSegments x1).length)
    (hnull : ((parseSegment ((parseXPathToSegments x1).getD j [])).index = none ∧
              (parseSegment ((parseXPathToSegments x2).getD j [])).index ≠ none) ∨
             ((parseSegment ((parseXPathToSegments x1).getD j [])).index ≠ none ∧
              (parseSegment ((parseXPathToSegments x2).getD j [])).index = none)) :
    j ∉ (compareXPaths x1 x2).variableIndices ∧
    ((compareXPaths x1 x2).isValid = true →
      ∃ psegs, (compareXPaths x1 x2).pattern =
          some ('/' :: List.intercalate (str "/") psegs) ∧
        psegs.getD j [] = renderFixedSeg (parseSegment ((parseXPathToSegments x1).getD j []))) := by
  have hwj : wildAt (parseXPathToSegments x1) (parseXPathToSegments x2) j = false := by
    unfold wildAt
    rcases hnull with ⟨h1, _⟩ | ⟨_, h2⟩
    · rw [h1]
      simp
    · rw [h2]
      simp
  rw [compareXPaths_agree_eq x1 x2 hlen htags]
  by_cases hfe : (List.range (parseXPathToSegments x1).length).filter
      (wildAt (parseXPathToSegments x1) (parseXPathToSegments x2)) = []
  · rw [if_pos hfe]
    exact ⟨by simp, fun hv => by simp at hv⟩
  · rw [if_neg hfe]
    constructor
    · intro hmem
      dsimp only at hmem
      have := (List.mem_filter.mp hmem).2
      rw [hwj] at this
      exact absurd this (by simp)
    · intro _
      refine ⟨(List.range (parseXPathToSegments x1).length).map
        (cmpRenderAt (parseXPathToSegments x1) (parseXPathToSegments x2)), rfl, ?_⟩
      have hg : ((List.range (parseXPathToSegments x1).length).map
          (cmpRenderAt (parseXPathToSegments x1) (parseXPathToSegments x2))).getD j [] =
          cmpRenderAt (parseXPathToSegments x1) (parseXPathToSegments x2) j := by
        rw [List.getD_eq_getElem?_getD, List.getElem?_map, List.getElem?_range hj]
        rfl
      rw [hg]
      simp [cmpRenderAt, hwj]

/-- Witness: compareXPaths_oneNullIndex_fixed at a concrete pair where the
middle segment has an index only on the first path. -/
theorem compareXPaths_oneNullIndex_fixed_witness :
    ((compareXPaths (str "/a/b[2]/c[5]") (str "/a/b/c[9]")).variableIndices.contains 1) = false := by
  have h := (compareXPaths_oneNullIndex_fixed (str "/a/b[2]/c[5]") (str "/a/b/c[9]") 1
    (by decide) (by decide) (by decide) (Or.inr ⟨by decide, by decide⟩)).1
  simpa using h

/- ===================== C9 and C6: detached nodes and deselection ===================== -/

theorem updatePattern_preserves_selection (doc : Doc) (st : PState) :
    (updatePattern doc st).selectedElements = st.selectedElements := by
  obtain ⟨sel, detP, matched⟩ := st
  match sel with
  | [] => rfl
  | [se] => rfl
  | se1 :: se2 :: rest =>
    unfold updatePattern updatePatternExtend
    dsimp only
    split_ifs <;> try rfl
    all_goals (split <;> try rfl)
    all_goals split_ifs <;> rfl

/-- C9 (amended): generateAbsoluteXPath does not fail on a detached node —
the fragment root yields the empty path string, descendants get
fragment-relative paths — and the engine keeps the node: updatePattern never
drops elements from the selection. -/
theorem detachedNode_policy_spec :
    (∀ (doc : Doc) (frag : Dom), generateAbsoluteXPath doc ⟨false, frag, []⟩ = []) ∧
    (∀ (doc : Doc) (frag : Dom) (k : Nat) (rp : List Nat) (parent el : Dom),
      subtreeAt rp.reverse frag = some parent →
      parent.childrenOf[k]? = some el →
      generateAbsoluteXPath doc ⟨false, frag, (k :: rp).reverse⟩ =
        generateAbsoluteXPath doc ⟨false, frag, rp.reverse⟩ ++
          '/' :: (tagLower el ++ '[' ::
            natToStr (1 + countSameTagBefore parent.childrenOf k (tagLower el)) ++ [']'])) ∧
    (∀ (doc : Doc) (st : PState),
      (updatePattern doc st).selectedElements = st.selectedElements) := by
  refine ⟨?_, ?_, updatePattern_preserves_selection⟩
  · intro doc frag
    simp [generateAbsoluteXPath, genAbsRev]
  · intro doc frag k rp parent el hsub hchild
    unfold generateAbsoluteXPath
    dsimp only
    rw [List.reverse_reverse, List.reverse_reverse]
    simp only [genAbsRev]
    rw [if_neg (by simp), hsub]
    dsimp only
    rw [hchild]

/-- Witness: the fragment-relative path of the child of a detached div, and
selection preservation on the concrete detached state. -/
theorem detachedNode_policy_spec_witness :
    generateAbsoluteXPath paraDoc ⟨false, divFrag, [0]⟩ = str "/span[1]" ∧
    (updatePattern paraDoc stDetached).selectedElements = stDetached.selectedElements := by
  constructor
  · have h := detachedNode_policy_spec.2.1 paraDoc divFrag 0 [] divFrag (mkElT "span" "s")
      rfl rfl
    simp only [List.reverse_nil, List.reverse_singleton] at h
    rw [detachedNode_policy_spec.1 paraDoc divFrag] at h
    exact h.trans (by decide)
  · exact detachedNode_policy_spec.2.2 paraDoc stDetached

/-- C9 counterexample: on a concrete detached node, generateAbsoluteXPath
returns the empty string — a normal value, not a DetachedNodeError — and the
engine keeps the node: after updatePattern the selection is unchanged and
the detached node even appears in matchedElements (state multiple), instead
of being dropped. -/
theorem detachedNode_counterexample :
    generateAbsoluteXPath paraDoc detachedDiv = [] ∧
    (updatePattern paraDoc stDetached).selectedElements = stDetached.selectedElements ∧
    (updatePattern paraDoc stDetached).matchedElements = [paraRef, detachedDiv] ∧
    (updatePattern paraDoc stDetached).detectedPattern = some ⟨str "multiple", none, []⟩ :=
  ⟨rfl, rfl, rfl, rfl⟩

/-- C6 (amended): double-click deselection removes the element when present
(no-op otherwise) and reruns updatePattern on the reduced selection; with
three or more remaining nodes updatePattern only extends the previously
held pattern against the last remaining absolute path, so when that
extension fails a wildcard promotion contributed solely by the removed node
survives in the kept pattern. -/
theorem handleElementDoubleClick_spec (doc : Doc) (st : PState) (e : ERef) :
    (st.selectedElements.findIdx? (fun se => erefBEq se.1 e) = none →
      handleElementDoubleClick doc st e = st) ∧
    (∀ i, st.selectedElements.findIdx? (fun se => erefBEq se.1 e) = some i →
      handleElementDoubleClick doc st e =
        updatePattern doc
          ⟨st.selectedElements.eraseIdx i, st.detectedPattern, st.matchedElements⟩) ∧
    (∀ i (p : DetPattern),
      st.selectedElements.findIdx? (fun se => erefBEq se.1 e) = some i →
      3 ≤ (st.selectedElements.eraseIdx i).length →
      st.detectedPattern = some p →
      p.ptype ≠ str "multiple" →
      (detect2DPattern (p.xpath.getD []) p.variableIndices
        (((st.selectedElements.eraseIdx i).map
          (fun se => generateAbsoluteXPath doc se.1)).getLast?.getD [])).isValid = false →
      (handleElementDoubleClick doc st e).detectedPattern = some p) := by
  refine ⟨?_, ?_, ?_⟩
  · intro hnone
    unfold handleElementDoubleClick
    rw [hnone]
  · intro i hfound
    unfold handleElementDoubleClick
    rw [hfound]
  · intro i p hfound hlen hdet hmul h2d
    unfold handleElementDoubleClick
    rw [hfound]
    exact updatePattern_extendFail_keeps doc
      ⟨st.selectedElements.eraseIdx i, st.detectedPattern, st.matchedElements⟩ p hlen hdet hmul h2d

/-- Witness: deselecting cell B from the four-cell table state keeps the
stale one-dimensional pattern. -/
theorem handleElementDoubleClick_spec_witness :
    (handleElementDoubleClick tableDoc stABCD tdB).detectedPattern =
      some ⟨str "1d", some (str "/html/body/table[1]/tr[1]/td[*]"), [4]⟩ :=
  (handleElementDoubleClick_spec tableDoc stABCD tdB).2.2 1
    ⟨str "1d", some (str "/html/body/table[1]/tr[1]/td[*]"), [4]⟩
    (by decide) (by decide) (by decide) (by decide) (by decide)

/-- C6 counterexample: after selecting the four table cells A, B, C, D and
deselecting B, the engine still holds the pattern with wildcard position 4
(the td axis), although that promotion was contributed solely by the
removed cell B: the three remaining paths all read td[1] at position 4,
and a from-scratch compare of the remaining paths puts the wildcard at
position 3 instead.  The pattern is not recomputed from scratch over the
remaining selection. -/
theorem deselect_stale_wildcard_counterexample :
    stAfterDeselect.selectedElements.length = 3 ∧
    stAfterDeselect.detectedPattern =
      some ⟨str "1d", some (str "/html/body/table[1]/tr[1]/td[*]"), [4]⟩ ∧
    (parseXPathToSegments (generateAbsoluteXPath tableDoc tdA)).getD 4 [] = str "td[1]" ∧
    (parseXPathToSegments (generateAbsoluteXPath tableDoc tdC)).getD 4 [] = str "td[1]" ∧
    (parseXPathToSegments (generateAbsoluteXPath tableDoc tdD)).getD 4 [] = str "td[1]" ∧
    (compareXPaths (generateAbsoluteXPath tableDoc tdA)
        (generateAbsoluteXPath tableDoc tdC)).variableIndices = [3] := by
  exact ⟨by decide, by decide, by decide, by decide, by decide, by decide⟩

/- ===================== C5: two-dimensional extraction ===================== -/

theorem rowsInsert_fst_mem (m : List (Nat × List Cell)) (k : Nat) (c : Cell)
    (h : k ∈ m.map Prod.fst) : (rowsInsert m k c).map Prod.fst = m.map Prod.fst := by
  induction m with
  | nil => simp at h
  | cons kv rest ih =>
    obtain ⟨k0, cells⟩ := kv
    unfold rowsInsert
    by_cases hk : k0 = k
    · rw [if_pos hk]
      simp
    · rw [if_neg hk]
      simp only [List.map_cons] at h ⊢
      rcases List.mem_cons.mp h with h1 | h1
      · exact absurd h1.symm hk
      · rw [ih h1]

theorem rowsInsert_fst_not_mem (m : List (Nat × List Cell)) (k : Nat) (c : Cell)
    (h : k ∉ m.map Prod.fst) :
    (rowsInsert m k c).map Prod.fst = m.map Prod.fst ++ [k] := by
  induction m with
  | nil => simp [rowsInsert]
  | cons kv rest ih =>
    obtain ⟨k0, cells⟩ := kv
    simp only [List.map_cons, List.mem_cons] at h
    push_neg at h
    unfold rowsInsert
    rw [if_neg (fun he => h.1 he.symm)]
    simp only [List.map_cons, List.cons_append]
    rw [ih h.2]

theorem rowsLookup_insert_self (m : List (Nat × List Cell)) (k : Nat) (c : Cell) :
    rowsLookup (rowsInsert m k c) k = rowsLookup m k ++ [c] := by
  induction m with
  | nil => simp [rowsInsert, rowsLookup]
  | cons kv rest ih =>
    obtain ⟨k0, cells⟩ := kv
    unfold rowsInsert
    by_cases hk : k0 = k
    · rw [if_pos hk]
      unfold rowsLookup
      rw [if_pos hk, if_pos hk]
    · rw [if_neg hk]
      unfold rowsLookup
      rw [if_neg hk, if_neg hk]
      exact ih

theorem rowsLookup_insert_ne (m : List (Nat × List Cell)) (k k' : Nat) (c : Cell)
    (h : k' ≠ k) : rowsLookup (rowsInsert m k c) k' = rowsLookup m k' := by
  induction m with
  | nil =>
    simp only [rowsInsert, rowsLookup]
    rw [if_neg (fun he => h he.symm)]
  | cons kv rest ih =>
    obtain ⟨k0, cells⟩ := kv
    have hne : k0 = k → ¬ k0 = k' := fun he1 he2 => h (he2 ▸ he1 ▸ rfl)
    unfold rowsInsert
    by_cases hk : k0 = k
    · rw [if_pos hk]
      unfold rowsLookup
      rw [if_neg (hne hk), if_neg (hne hk)]
    · rw [if_neg hk]
      unfold rowsLookup
      by_cases hk' : k0 = k'
      · rw [if_pos hk', if_pos hk']
      · rw [if_neg hk', if_neg hk']
        exact ih

theorem extract2DFold_fst (doc : Doc) (segCount v0 v1 : Nat) (l : List ERef) :
    ∀ acc : List (Nat × List Cell),
    (∀ e ∈ l, (parseXPathToSegments (generateAbsoluteXPath doc e)).length = segCount) →
    (l.foldl (extract2DStep doc segCount v0 v1) acc).map Prod.fst =
      acc.map Prod.fst ++ keysInOrder (acc.map Prod.fst) (l.map (varKeyOf doc v0)) := by
  induction l with
  | nil => intro acc _; simp [keysInOrder]
  | cons e rest ih =>
    intro acc hdepth
    have hde : (parseXPathToSegments (generateAbsoluteXPath doc e)).length = segCount :=
      hdepth e (by simp)
    rw [List.foldl_cons, List.map_cons]
    have hstep : extract2DStep doc segCount v0 v1 acc e =
        rowsInsert acc (varKeyOf doc v0 e)
          ⟨varKeyOf doc v1 e, normalizeText (erefText e)⟩ := by
      unfold extract2DStep
      rw [if_neg (by rw [hde]; exact fun h => h rfl)]
    rw [hstep]
    unfold keysInOrder
    by_cases hmem : varKeyOf doc v0 e ∈ acc.map Prod.fst
    · rw [if_pos hmem,
        ih _ (fun x hx => hdepth x (List.mem_cons_of_mem _ hx)),
        rowsInsert_fst_mem _ _ _ hmem]
    · rw [if_neg hmem,
        ih _ (fun x hx => hdepth x (List.mem_cons_of_mem _ hx)),
        rowsInsert_fst_not_mem _ _ _ hmem]
      simp

theorem extract2DFold_lookup (doc : Doc) (segCount v0 v1 : Nat) (l : List ERef) :
    ∀ (acc : List (Nat × List Cell)) (k : Nat),
    (∀ e ∈ l, (parseXPathToSegments (generateAbsoluteXPath doc e)).length = segCount) →
    rowsLookup (l.foldl (extract2DStep doc segCount v0 v1) acc) k =
      rowsLookup acc k ++
        (l.filter (fun e => varKeyOf doc v0 e = k)).map
          (fun e => (⟨varKeyOf doc v1 e, normalizeText (erefText e)⟩ : Cell)) := by
  induction l with
  | nil => intro acc k _; simp
  | cons e rest ih =>
    intro acc k hdepth
    have hde : (parseXPathToSegments (generateAbsoluteXPath doc e)).length = segCount :=
      hdepth e (by simp)
    rw [List.foldl_cons]
    have hstep : extract2DStep doc segCount v0 v1 acc e =
        rowsInsert acc (varKeyOf doc v0 e)
          ⟨varKeyOf doc v1 e, normalizeText (erefText e)⟩ := by
      unfold extract2DStep
      rw [if_neg (by rw [hde]; exact fun h => h rfl)]
    rw [hstep, ih _ k (fun x hx => hdepth x (List.mem_cons_of_mem _ hx))]
    by_cases hk : varKeyOf doc v0 e = k
    · rw [List.filter_cons_of_pos (by simpa using hk), List.map_cons]
      rw [← hk, rowsLookup_insert_self]
      simp
    · rw [List.filter_cons_of_neg (by simpa using hk)]
      rw [rowsLookup_insert_ne _ _ _ _ (fun he => hk he.symm)]

theorem insertLeBy_map {α β : Type} (key : β → Nat) (f : α → β) (x : α) (l : List α) :
    insertLeBy key (f x) (l.map f) = (insertLeBy (fun a => key (f a)) x l).map f := by
  induction l with
  | nil => simp [insertLeBy]
  | cons y ys ih =>
    simp only [List.map_cons]
    unfold insertLeBy
    by_cases hle : key (f x) ≤ key (f y)
    · rw [if_pos hle, if_pos hle]
      simp
    · rw [if_neg hle, if_neg hle]
      simp only [List.map_cons]
      rw [ih]

theorem sortByKey_map {α β : Type} (key : β → Nat) (f : α → β) (l : List α) :
    sortByKey key (l.map f) = (sortByKey (fun a => key (f a)) l).map f := by
  induction l with
  | nil => rfl
  | cons x xs ih =>
    simp only [List.map_cons]
    unfold sortByKey
    rw [ih, insertLeBy_map]

/-- C5: for a two-dimensional pattern (at least two wildcard positions) and
matched nodes whose absolute paths all have the pattern depth, extract2DData
buckets the nodes by the index value at the first wildcard position as row
key, orders the cells inside each bucket by the index value at the second
wildcard position ascending, and orders the row buckets by row key
ascending. -/
theorem extract2DData_grid_spec (doc : Doc) (pat : Str) (v0 v1 : Nat) (vrest : List Nat)
    (matched : List ERef)
    (hdepth : ∀ e ∈ matched,
      (parseXPathToSegments (generateAbsoluteXPath doc e)).length =
        (parseXPathToSegments pat).length) :
    extract2DCore doc pat (v0 :: v1 :: vrest) matched = specGrid2D doc v0 v1 matched := by
  unfold extract2DCore specGrid2D
  dsimp only
  rw [extract2DFold_fst doc _ v0 v1 matched [] hdepth]
  simp only [List.map_nil, List.nil_append]
  apply List.map_congr_left
  intro k _
  rw [extract2DFold_lookup doc _ v0 v1 matched [] k hdepth]
  simp only [rowsLookup, List.nil_append]
  rw [sortByKey_map Cell.colIndex
    (fun e => (⟨varKeyOf doc v1 e, normalizeText (erefText e)⟩ : Cell))]
  rw [List.map_map]
  rfl

/-- Witness: the grid over the concrete table equals the spec grid, which is
the three-by-two matrix of the table texts. -/
theorem extract2DData_grid_spec_witness :
    extract2DCore tableDoc pat2D [3, 4] matched2D = specGrid2D tableDoc 3 4 matched2D ∧
    specGrid2D tableDoc 3 4 matched2D =
      [[str "a", str "b"], [str "c", str "d"], [str "e", str "f"]] :=
  ⟨extract2DData_grid_spec tableDoc pat2D 3 4 [] matched2D (by decide), by decide⟩

/- ===================== C4: wildcard resolution ===================== -/

theorem collect_wildcard_unfold (doc : Doc) (segment : Str) (rest : List Str) (ctx : Ctx)
    (hw : containsSub segment (str "[*]") = true) :
    collectElementsWithWildcard doc (segment :: rest) ctx =
      ((ctxChildren doc ctx).filter (fun qc => tagLower qc.2 =
          (parseSegment (replaceFirst segment (str "[*]") (str "[1]"))).tag)).flatMap
        (fun qc => collectElementsWithWildcard doc rest (some qc.1)) := by
  have hhtml : ¬ (segment = str "html" ∧ ctx = none) := by
    rintro ⟨h, -⟩
    rw [h] at hw
    exact absurd hw (by decide)
  have hbody : ¬ (segment = str "body" ∧ ctx = some ([] : Pos)) := by
    rintro ⟨h, -⟩
    rw [h] at hw
    exact absurd hw (by decide)
  simp only [collectElementsWithWildcard]
  rw [if_neg hhtml, if_neg hbody, if_pos hw]

theorem mem_ctxChildren (doc : Doc) (ctx : Ctx) (qc : Pos × Dom)
    (h : qc ∈ ctxChildren doc ctx) :
    subtreeAt qc.1 doc.html = some qc.2 := by
  cases ctx with
  | none =>
    simp only [ctxChildren, List.mem_singleton] at h
    rw [h]
    rfl
  | some q =>
    simp only [ctxChildren] at h
    cases hs : subtreeAt q doc.html with
    | none => rw [hs] at h; simp at h
    | some d =>
      rw [hs] at h
      obtain ⟨jc, hjc, rfl⟩ := List.mem_map.mp h
      have hsub : ∀ (q' : Pos) (j : Nat) (root : Dom),
          subtreeAt (q' ++ [j]) root =
            (subtreeAt q' root).bind (fun pd => match pd.childrenOf[j]? with
              | some c => some c
              | none => none) := by
        intro q' j root
        induction q' generalizing root with
        | nil =>
          cases hc : root.childrenOf[j]? <;> simp [subtreeAt, hc]
        | cons a q'' ih =>
          simp only [List.cons_append, subtreeAt]
          cases root.childrenOf[a]? with
          | none => rfl
          | some c => exact ih c
      rw [hsub q jc.1 doc.html, hs]
      have hget : d.childrenOf[jc.1]? = some jc.2 := by
        have : ∀ (l : List Dom) (i : Nat) (x : Nat × Dom), x ∈ List.enumFrom i l →
            l[x.1 - i]? = some x.2 ∧ i ≤ x.1 := by
          intro l
          induction l with
          | nil => intro i x hx; simp [List.enumFrom] at hx
          | cons c cs ihl =>
            intro i x hx
            simp only [List.enumFrom, List.mem_cons] at hx
            rcases hx with rfl | hx
            · simp
            · obtain ⟨h1, h2⟩ := ihl (i + 1) x hx
              refine ⟨?_, by omega⟩
              have hxi : x.1 - i = (x.1 - (i + 1)) + 1 := by omega
              rw [hxi]
              simpa using h1
        have h2 := this d.childrenOf 0 jc (by simpa [List.enum] using hjc)
        simpa using h2.1
      simp [hget]

theorem nthMatchingFrom_mem (tn : Str) (target : Nat) :
    ∀ (cs : List (Pos × Dom)) (count : Nat) (p : Pos),
    nthMatchingFrom tn target cs count = some p → ∃ c, (p, c) ∈ cs := by
  intro cs
  induction cs with
  | nil => intro count p h; simp [nthMatchingFrom] at h
  | cons qc rest ih =>
    intro count p h
    obtain ⟨q1, c1⟩ := qc
    unfold nthMatchingFrom at h
    split_ifs at h with h1 h2
    · refine ⟨c1, ?_⟩
      have hq : q1 = p := by simpa using h
      subst hq
      exact List.mem_cons_self _ _
    · obtain ⟨c, hc⟩ := ih (count + 1) p h
      exact ⟨c, List.mem_cons_of_mem _ hc⟩
    · obtain ⟨c, hc⟩ := ih count p h
      exact ⟨c, List.mem_cons_of_mem _ hc⟩

theorem collect_extends (doc : Doc) (segs : List Str) :
    ∀ (q : Pos) (r : Pos), r ∈ collectElementsWithWildcard doc segs (some q) →
    ∃ t, r = q ++ t := by
  induction segs with
  | nil =>
    intro q r hr
    simp only [collectElementsWithWildcard, List.mem_singleton] at hr
    exact ⟨[], by simp [hr]⟩
  | cons s rest ih =>
    intro q r hr
    by_cases hq : q = []
    · exact ⟨r.drop q.length, by simp [hq]⟩
    · simp only [collectElementsWithWildcard] at hr
      rw [if_neg (by rintro ⟨-, hc⟩; exact Option.noConfusion hc)] at hr
      rw [if_neg (by rintro ⟨-, hc⟩; exact hq (by injection hc))] at hr
      by_cases hw : containsSub s (str "[*]") = true
      · rw [if_pos hw] at hr
        obtain ⟨qc, hqc, hrin⟩ := List.mem_flatMap.mp hr
        have hqcm := List.mem_of_mem_filter hqc
        simp only [ctxChildren] at hqcm
        cases hs : subtreeAt q doc.html with
        | none => rw [hs] at hqcm; simp at hqcm
        | some d =>
          rw [hs] at hqcm
          obtain ⟨jc, _, rfl⟩ := List.mem_map.mp hqcm
          obtain ⟨t, rfl⟩ := ih (q ++ [jc.1]) r hrin
          exact ⟨jc.1 :: t, by simp⟩
      · rw [if_neg hw] at hr
        cases hnth : nthMatchingFrom
            (parseSegment (replaceFirst s (str "[*]") (str "[1]"))).tag
            (match (parseSegment (replaceFirst s (str "[*]") (str "[1]"))).index with
             | none => 1 | some 0 => 1 | some (k + 1) => k + 1)
            (ctxChildren doc (some q)) 0 with
        | none => rw [hnth] at hr; simp at hr
        | some cp =>
          rw [hnth] at hr
          obtain ⟨c, hcm⟩ := nthMatchingFrom_mem _ _ _ _ _ hnth
          simp only [ctxChildren] at hcm
          cases hs : subtreeAt q doc.html with
          | none => rw [hs] at hcm; simp at hcm
          | some d =>
            rw [hs] at hcm
            obtain ⟨jc, _, hjc⟩ := List.mem_map.mp hcm
            obtain ⟨t, rfl⟩ := ih cp r hr
            have hcp : cp = q ++ [jc.1] := by
              have := congrArg Prod.fst hjc
              simpa using this.symm
            exact ⟨jc.1 :: t, by simp [hcp]⟩

theorem posLtB_append (q : Pos) (j1 j2 : Nat) (t1 t2 : Pos) (h : j1 < j2) :
    posLtB (q ++ j1 :: t1) (q ++ j2 :: t2) = true := by
  induction q with
  | nil => simp [posLtB, h]
  | cons a as ih => simp [posLtB, ih]

theorem pairwise_flatMap {α β : Type} (R : β → β → Prop) (f : α → List β) :
    ∀ (l : List α), (∀ a ∈ l, (f a).Pairwise R) →
    l.Pairwise (fun a b => ∀ x ∈ f a, ∀ y ∈ f b, R x y) →
    (l.flatMap f).Pairwise R := by
  intro l
  induction l with
  | nil => intro _ _; simp
  | cons a as ih =>
    intro hin hcross
    rw [List.flatMap_cons]
    rw [List.pairwise_append]
    refine ⟨hin a (by simp), ih (fun x hx => hin x (by simp [hx]))
      (List.Pairwise.sublist (by simp) hcross), ?_⟩
    intro x hx y hy
    obtain ⟨b, hb, hyb⟩ := List.mem_flatMap.mp hy
    exact (List.rel_of_pairwise_cons hcross hb) x hx y hyb

theorem mem_enumFrom_le {α : Type} :
    ∀ (l : List α) (i : Nat) (x : Nat × α), x ∈ List.enumFrom i l → i ≤ x.1 := by
  intro l
  induction l with
  | nil => intro i x hx; simp [List.enumFrom] at hx
  | cons c cs ih =>
    intro i x hx
    simp only [List.enumFrom, List.mem_cons] at hx
    rcases hx with rfl | hx
    · simp
    · have := ih (i + 1) x hx
      omega

theorem pairwise_fst_lt_enumFrom {α : Type} :
    ∀ (l : List α) (i : Nat),
    List.Pairwise (fun (x y : Nat × α) => x.1 < y.1) (List.enumFrom i l) := by
  intro l
  induction l with
  | nil => intro i; simp [List.enumFrom]
  | cons c cs ih =>
    intro i
    simp only [List.enumFrom]
    exact List.Pairwise.cons
      (fun y hy => by have := mem_enumFrom_le cs (i + 1) y hy; omega) (ih (i + 1))

theorem collect_sorted (doc : Doc) (segs : List Str) :
    ∀ ctx, List.Pairwise (fun p q => posLtB p q = true)
      (collectElementsWithWildcard doc segs ctx) := by
  induction segs with
  | nil =>
    intro ctx
    cases ctx <;> simp [collectElementsWithWildcard]
  | cons s rest ih =>
    intro ctx
    simp only [collectElementsWithWildcard]
    by_cases h1 : s = str "html" ∧ ctx = none
    · rw [if_pos h1]
      exact ih (some [])
    · rw [if_neg h1]
      by_cases h2 : s = str "body" ∧ ctx = some ([] : Pos)
      · rw [if_pos h2]
        cases bodyPos doc with
        | none => simp
        | some bp => exact ih (some bp)
      · rw [if_neg h2]
        by_cases hw : containsSub s (str "[*]") = true
        · rw [if_pos hw]
          apply pairwise_flatMap
          · intro a _
            exact ih (some a.1)
          · -- cross blocks: children positions are q ++ [j] with increasing j
            have hch : List.Pairwise
                (fun (a b : Pos × Dom) => ∀ x ∈ collectElementsWithWildcard doc rest (some a.1),
                  ∀ y ∈ collectElementsWithWildcard doc rest (some b.1), posLtB x y = true)
                (ctxChildren doc ctx) := by
              cases ctx with
              | none => simp [ctxChildren]
              | some q =>
                simp only [ctxChildren]
                cases hs : subtreeAt q doc.html with
                | none => simp
                | some d =>
                  rw [List.pairwise_map]
                  have henum := pairwise_fst_lt_enumFrom d.childrenOf 0
                  refine henum.imp ?_
                  intro a b hab x hx y hy
                  obtain ⟨t1, rfl⟩ := collect_extends doc rest (q ++ [a.1]) x hx
                  obtain ⟨t2, rfl⟩ := collect_extends doc rest (q ++ [b.1]) y hy
                  simpa using posLtB_append q a.1 b.1 t1 t2 hab
            exact hch.filter _
        · rw [if_neg hw]
          cases hnth : nthMatchingFrom
              (parseSegment (replaceFirst s (str "[*]") (str "[1]"))).tag
              (match (parseSegment (replaceFirst s (str "[*]") (str "[1]"))).index with
               | none => 1 | some 0 => 1 | some (k + 1) => k + 1)
              (ctxChildren doc ctx) 0 with
          | none => simp
          | some cp => exact ih (some cp)

theorem domSize_pos (d : Dom) : 1 ≤ domSize d := by
  cases d with
  | mk t i x cs => simp [domSize]

theorem domListSize_eq_sum (cs : List Dom) : domListSize cs = (cs.map domSize).sum := by
  induction cs with
  | nil => simp [domListSize]
  | cons c cs ih => simp [domListSize, ih]

theorem ctxSize_of_subtree (doc : Doc) (p : Pos) (d : Dom)
    (h : subtreeAt p doc.html = some d) : ctxSize doc (some p) = domSize d := by
  simp [ctxSize, h]

theorem ctxChildren_size_sum (doc : Doc) (ctx : Ctx) :
    ((ctxChildren doc ctx).map (fun qc => domSize qc.2)).sum ≤ ctxSize doc ctx := by
  cases ctx with
  | none => simp [ctxChildren, ctxSize]
  | some q =>
    simp only [ctxChildren, ctxSize]
    cases hs : subtreeAt q doc.html with
    | none => simp
    | some d =>
      simp only [List.map_map]
      have : (d.childrenOf.enum.map ((fun qc : Pos × Dom => domSize qc.2) ∘
          (fun jc : Nat × Dom => (q ++ [jc.1], jc.2)))).sum =
          (d.childrenOf.map domSize).sum := by
        have hcomp : ((fun qc : Pos × Dom => domSize qc.2) ∘
            (fun jc : Nat × Dom => (q ++ [jc.1], jc.2))) = (fun jc => domSize jc.2) := rfl
        rw [hcomp]
        have := List.enum_map_snd d.childrenOf
        calc (d.childrenOf.enum.map (fun jc => domSize jc.2)).sum
            = ((d.childrenOf.enum.map Prod.snd).map domSize).sum := by rw [List.map_map]; rfl
          _ = (d.childrenOf.map domSize).sum := by rw [this]
      rw [this]
      cases d with
      | mk t i x cs =>
        simp only [Dom.childrenOf, domSize]
        rw [← domListSize_eq_sum]
        omega


theorem findIdx?_go_valid {α : Type} (p : α → Bool) :
    ∀ (l : List α) (st i : Nat), List.findIdx? p l st = some i →
    st ≤ i ∧ ∃ x, l[i - st]? = some x := by
  intro l
  induction l with
  | nil => intro st i h; simp [List.findIdx?] at h
  | cons a as ih =>
    intro st i h
    rw [List.findIdx?] at h
    by_cases hp : p a
    · rw [if_pos hp] at h
      injection h with h
      subst h
      exact ⟨Nat.le_refl _, a, by simp⟩
    · rw [if_neg hp] at h
      obtain ⟨hle, x, hx⟩ := ih (st + 1) i h
      refine ⟨by omega, x, ?_⟩
      have hi : i - st = (i - (st + 1)) + 1 := by omega
      rw [hi]
      simpa using hx

theorem domSize_le_of_mem {c : Dom} : ∀ {cs : List Dom}, c ∈ cs → domSize c ≤ domListSize cs := by
  intro cs
  induction cs with
  | nil => intro h; simp at h
  | cons d ds ih =>
    intro h
    rcases List.mem_cons.mp h with rfl | h
    · simp [domListSize]
    · have := ih h
      simp only [domListSize]
      omega

theorem collect_length_le (doc : Doc) (segs : List Str) :
    ∀ ctx, (collectElementsWithWildcard doc segs ctx).length ≤ ctxSize doc ctx := by
  induction segs with
  | nil =>
    intro ctx
    cases ctx with
    | none => simp [collectElementsWithWildcard, ctxSize]
    | some p =>
      simp only [collectElementsWithWildcard, List.length_singleton, ctxSize]
      cases subtreeAt p doc.html with
      | none => simp
      | some d => simpa using domSize_pos d
  | cons s rest ih =>
    intro ctx
    have hchild_size : ∀ qc ∈ ctxChildren doc ctx,
        (collectElementsWithWildcard doc rest (some qc.1)).length ≤ domSize qc.2 := by
      intro qc hqc
      calc (collectElementsWithWildcard doc rest (some qc.1)).length
          ≤ ctxSize doc (some qc.1) := ih (some qc.1)
        _ = domSize qc.2 := ctxSize_of_subtree doc qc.1 qc.2 (mem_ctxChildren doc ctx qc hqc)
    simp only [collectElementsWithWildcard]
    by_cases h1 : s = str "html" ∧ ctx = none
    · rw [if_pos h1]
      obtain ⟨-, rfl⟩ := h1
      calc (collectElementsWithWildcard doc rest (some [])).length
          ≤ ctxSize doc (some []) := ih (some [])
        _ = domSize doc.html := ctxSize_of_subtree doc [] doc.html rfl
        _ ≤ ctxSize doc none := by simp [ctxSize]
    · rw [if_neg h1]
      by_cases h2 : s = str "body" ∧ ctx = some ([] : Pos)
      · rw [if_pos h2]
        obtain ⟨-, rfl⟩ := h2
        cases hb : bodyPos doc with
        | none =>
          try simp only [hb]
          simp
        | some bp =>
          try simp only [hb]
          have hcalc : (collectElementsWithWildcard doc rest (some bp)).length ≤
              ctxSize doc (some ([] : Pos)) := by
            simp only [bodyPos, bodyIdx] at hb
            cases hf : doc.html.childrenOf.findIdx? (fun c => tagLower c = str "body") with
            | none => rw [hf] at hb; simp at hb
            | some bi =>
              rw [hf] at hb
              have hbp : bp = [bi] := by simpa using hb.symm
              obtain ⟨-, b, hbv⟩ := findIdx?_go_valid _ doc.html.childrenOf 0 bi hf
              simp only [Nat.sub_zero] at hbv
              have hsub : subtreeAt bp doc.html = some b := by
                rw [hbp]
                simp [subtreeAt, hbv]
              have hmem : b ∈ doc.html.childrenOf := by
                obtain ⟨hlt, hget⟩ := List.getElem?_eq_some_iff.mp hbv
                exact hget ▸ List.getElem_mem hlt
              calc (collectElementsWithWildcard doc rest (some bp)).length
                  ≤ ctxSize doc (some bp) := ih (some bp)
                _ = domSize b := ctxSize_of_subtree doc bp b hsub
                _ ≤ domListSize doc.html.childrenOf := domSize_le_of_mem hmem
                _ ≤ ctxSize doc (some []) := by
                    rw [ctxSize_of_subtree doc [] doc.html rfl]
                    cases hd : doc.html with
                    | mk t i x cs => simp [domSize, Dom.childrenOf]
          exact hcalc
      · rw [if_neg h2]
        by_cases hw : containsSub s (str "[*]") = true
        · rw [if_pos hw, List.length_flatMap]
          apply le_trans ?_ (ctxChildren_size_sum doc ctx)
          apply le_trans (List.sum_le_sum ?_) (List.Sublist.sum_le_sum
            (List.Sublist.map _ (List.filter_sublist _)) (fun a _ => Nat.zero_le a))
          intro qc hqc
          exact hchild_size qc (List.mem_of_mem_filter hqc)
        · rw [if_neg hw]
          cases hnth : nthMatchingFrom
              (parseSegment (replaceFirst s (str "[*]") (str "[1]"))).tag
              (match (parseSegment (replaceFirst s (str "[*]") (str "[1]"))).index with
               | none => 1 | some 0 => 1 | some (k + 1) => k + 1)
              (ctxChildren doc ctx) 0 with
          | none => simp
          | some cp =>
            obtain ⟨c, hcm⟩ := nthMatchingFrom_mem _ _ _ _ _ hnth
            calc (collectElementsWithWildcard doc rest (some cp)).length
                ≤ domSize c := hchild_size (cp, c) hcm
              _ ≤ ((ctxChildren doc ctx).map (fun qc => domSize qc.2)).sum := by
                  apply List.single_le_sum (fun x _ => Nat.zero_le x)
                  exact List.mem_map_of_mem _ hcm
              _ ≤ ctxSize doc ctx := ctxChildren_size_sum doc ctx

/-- C4 (amended, holding for the recursive resolver of part_003): at a
wildcard segment the collector recurses into every child whose lowercased
tag matches, regardless of index and with no cap, concatenating the
recursive results in ascending sibling-index order; every result list is
strictly increasing in document pre-order, and its length is bounded by the
node count of the tree. -/
theorem collectElementsWithWildcard_spec :
    (∀ (doc : Doc) (segment : Str) (rest : List Str) (ctx : Ctx),
      containsSub segment (str "[*]") = true →
      collectElementsWithWildcard doc (segment :: rest) ctx =
        ((ctxChildren doc ctx).filter (fun qc => tagLower qc.2 =
            (parseSegment (replaceFirst segment (str "[*]") (str "[1]"))).tag)).flatMap
          (fun qc => collectElementsWithWildcard doc rest (some qc.1))) ∧
    (∀ (doc : Doc) (segs : List Str) (ctx : Ctx),
      List.Pairwise (fun p q => posLtB p q = true)
        (collectElementsWithWildcard doc segs ctx)) ∧
    (∀ (doc : Doc) (segs : List Str) (ctx : Ctx),
      (collectElementsWithWildcard doc segs ctx).length ≤ ctxSize doc ctx) :=
  ⟨collect_wildcard_unfold,
   fun doc segs ctx => collect_sorted doc segs ctx,
   fun doc segs ctx => collect_length_le doc segs ctx⟩

/-- Witness: the wildcard unfolding at the concrete td-wildcard segment over
the first table row. -/
theorem collectElementsWithWildcard_spec_witness :
    collectElementsWithWildcard tableDoc [str "td[*]"] (some [0, 0, 0]) =
      ((ctxChildren tableDoc (some [0, 0, 0])).filter (fun qc => tagLower qc.2 =
          (parseSegment (replaceFirst (str "td[*]") (str "[*]") (str "[1]"))).tag)).flatMap
        (fun qc => collectElementsWithWildcard tableDoc [] (some qc.1)) :=
  collectElementsWithWildcard_spec.1 tableDoc (str "td[*]") [] (some [0, 0, 0]) (by decide)

/-- The while loop of collectElementsByPattern can never push more elements
than its remaining fuel (the maxIterations bound). -/
theorem collectByPatternAux_length_le (doc : Doc) (info : PatternInfo) :
    ∀ (fuel idx : Nat), (collectByPatternAux doc info fuel idx).length ≤ fuel := by
  intro fuel
  induction fuel with
  | zero => intro idx; simp [collectByPatternAux]
  | succ n ih =>
    intro idx
    simp only [collectByPatternAux]
    cases hel : getElementByXPath doc (buildPatternXPath info idx) with
    | none =>
      try simp only [hel]
      simp
    | some el =>
      try simp only [hel]
      simpa using ih (idx + 1)

/-- C4 counterexample: the iterative resolver of xpath_picker_ver2 caps its
enumeration at maxIterations = 1000, so over a body with 1001 matching div
children its result is strictly shorter than the list of matching children
— not every child whose tag matches is visited.  The analyzer really
produces this pattern from the first two divs. -/
theorem collectElementsByPattern_cap_counterexample :
    analyzeXPathPair (str "/html/body/div[1]") (str "/html/body/div[2]") = some capInfo ∧
    (collectElementsByPattern capDoc capInfo).length <
      ((capDoc.html.childrenOf.getD 0 (mkEl "body" [])).childrenOf.filter
        (fun c => tagLower c = str "div")).length := by
  constructor
  · decide
  · have hcap : (collectElementsByPattern capDoc capInfo).length ≤ 1000 :=
      collectByPatternAux_length_le capDoc capInfo 1000 1
    have hcount : ((capDoc.html.childrenOf.getD 0 (mkEl "body" [])).childrenOf.filter
        (fun c => tagLower c = str "div")).length = 1001 := by
      show ((List.replicate 1001 (mkElT "div" "x")).filter
        (fun c => tagLower c = str "div")).length = 1001
      rw [List.filter_replicate, if_pos (by decide), List.length_replicate]
    rw [hcount]
    omega

/- ===================== C2: canonical path round-trip ===================== -/

theorem natToStrAux_digits : ∀ (fuel n : Nat), ∀ c ∈ natToStrAux fuel n, c.isDigit = true := by
  intro fuel
  induction fuel with
  | zero => intro n c hc; simp [natToStrAux] at hc
  | succ m ih =>
    intro n c hc
    rw [natToStrAux] at hc
    by_cases hn : n = 0
    · rw [if_pos hn] at hc; simp at hc
    · rw [if_neg hn] at hc
      rcases List.mem_append.mp hc with h | h
      · exact ih _ c h
      · have : c = digitChar (n % 10) := by simpa using h
        subst this
        have h10 : n % 10 < 10 := Nat.mod_lt _ (by omega)
        interval_cases h : n % 10 <;> decide

theorem natToStr_digits (n : Nat) : ∀ c ∈ natToStr n, c.isDigit = true := by
  intro c hc
  unfold natToStr at hc
  by_cases hn : n = 0
  · rw [if_pos hn] at hc
    have : c = '0' := by simpa using hc
    subst this
    decide
  · rw [if_neg hn] at hc
    exact natToStrAux_digits n n c hc

theorem digitChar_toNat (d : Nat) (h : d < 10) : (digitChar d).toNat = 48 + d := by
  interval_cases d <;> decide

theorem strToNat_natToStrAux : ∀ (fuel n : Nat), n ≤ fuel → strToNat (natToStrAux fuel n) = n := by
  intro fuel
  induction fuel with
  | zero => intro n h; interval_cases n; simp [natToStrAux, strToNat]
  | succ m ih =>
    intro n h
    rw [natToStrAux]
    by_cases hn : n = 0
    · rw [if_pos hn, hn]
      simp [strToNat]
    · rw [if_neg hn]
      have hrec : strToNat (natToStrAux m (n / 10)) = n / 10 := by
        apply ih
        have : n / 10 < n := Nat.div_lt_self (by omega) (by omega)
        omega
      unfold strToNat at hrec ⊢
      rw [List.foldl_append]
      rw [hrec]
      simp only [List.foldl_cons, List.foldl_nil]
      rw [digitChar_toNat _ (Nat.mod_lt _ (by omega))]
      omega

theorem strToNat_natToStr (n : Nat) : strToNat (natToStr n) = n := by
  unfold natToStr
  by_cases hn : n = 0
  · rw [if_pos hn, hn]; decide
  · rw [if_neg hn]
    exact strToNat_natToStrAux n n (Nat.le_refl n)

theorem natToStr_ne_nil (n : Nat) : natToStr n ≠ [] := by
  unfold natToStr
  by_cases hn : n = 0
  · rw [if_pos hn]; simp
  · rw [if_neg hn]
    cases n with
    | zero => exact absurd rfl hn
    | succ m =>
      rw [natToStrAux]
      rw [if_neg hn]
      intro hcon
      have := List.append_eq_nil.mp hcon
      simp at this

theorem parseSegment_tagIdx (t : Str) (n : Nat)
    (htne : t ≠ []) (hta : t.all tagChar = true) :
    parseSegment (t ++ '[' :: (natToStr n ++ [']'])) = ⟨t, some n, none⟩ := by
  have hds : (natToStr n).all Char.isDigit = true :=
    List.all_eq_true.mpr (fun c hc => natToStr_digits n c hc)
  have h1 : (t ++ '[' :: (natToStr n ++ [']'])).takeWhile tagChar = t :=
    takeWhile_all_append hta (by decide)
  have h2 : (t ++ '[' :: (natToStr n ++ [']'])).dropWhile tagChar = '[' :: (natToStr n ++ [']']) :=
    dropWhile_all_append hta (by decide)
  have h3 : (natToStr n ++ [']']).takeWhile Char.isDigit = natToStr n := by
    have := takeWhile_all_append (c := ']') (b := ([] : Str)) hds (by decide)
    simpa using this
  have h4 : (natToStr n ++ [']']).dropWhile Char.isDigit = [']'] := by
    have := dropWhile_all_append (c := ']') (b := ([] : Str)) hds (by decide)
    simpa using this
  have hcore : parseSegmentCore (t ++ '[' :: (natToStr n ++ [']'])) = some (t, some n) := by
    unfold parseSegmentCore
    dsimp only
    rw [h1, h2, if_neg htne]
    split
    · next heq => exact absurd heq (by simp)
    · next r2 heq =>
      have hr2 : natToStr n ++ [']'] = r2 := by
        have := List.cons.injEq '[' (natToStr n ++ [']']) '[' r2 ▸ heq
        exact (List.cons.inj heq).2
      subst hr2
      rw [h3, h4, if_neg (natToStr_ne_nil n), strToNat_natToStr]
      rfl
    · next hne hne2 => exact absurd rfl (hne2 (natToStr n ++ [']']))
  simp [parseSegment, hcore]

theorem splitOnSlash_ne_nil : ∀ (x : Str), splitOnSlash x ≠ [] := by
  intro x
  cases x with
  | nil => simp [splitOnSlash]
  | cons c rest =>
    rw [splitOnSlash]
    by_cases hc : c = '/'
    · rw [if_pos hc]; simp
    · rw [if_neg hc]
      rcases h : splitOnSlash rest with _ | ⟨s, ss⟩ <;> simp

theorem splitOnSlash_append (b : Str) : ∀ (a : Str),
    splitOnSlash (a ++ '/' :: b) = splitOnSlash a ++ splitOnSlash b := by
  intro a
  induction a with
  | nil =>
    rw [List.nil_append]
    simp [splitOnSlash]
  | cons c a' ih =>
    rw [List.cons_append, splitOnSlash]
    by_cases hc : c = '/'
    · rw [if_pos hc, ih]
      conv_rhs => rw [splitOnSlash, if_pos hc]
      rfl
    · rw [if_neg hc, ih]
      conv_rhs => rw [splitOnSlash, if_neg hc]
      rcases h : splitOnSlash a' with _ | ⟨s, ss⟩
      · exact absurd h (splitOnSlash_ne_nil a')
      · rfl

theorem splitOnSlash_no_slash : ∀ (s : Str), '/' ∉ s → splitOnSlash s = [s] := by
  intro s
  induction s with
  | nil => intro _; rfl
  | cons c rest ih =>
    intro h
    rw [splitOnSlash]
    have hc : ¬ c = '/' := fun hcon => h (hcon ▸ List.mem_cons_self c rest)
    rw [if_neg hc, ih (fun hm => h (List.mem_cons_of_mem c hm))]

theorem mem_splitOnSlash_sub : ∀ (x s : Str), s ∈ splitOnSlash x → ∀ c ∈ s, c ∈ x := by
  intro x
  induction x with
  | nil =>
    intro s hs c hc
    simp only [splitOnSlash, List.mem_singleton] at hs
    subst hs
    simp at hc
  | cons a rest ih =>
    intro s hs c hc
    rw [splitOnSlash] at hs
    by_cases ha : a = '/'
    · rw [if_pos ha] at hs
      rcases List.mem_cons.mp hs with rfl | hs
      · simp at hc
      · exact List.mem_cons_of_mem a (ih s hs c hc)
    · rw [if_neg ha] at hs
      rcases hsp : splitOnSlash rest with _ | ⟨t, ts⟩
      · exact absurd hsp (splitOnSlash_ne_nil rest)
      · rw [hsp] at hs
        rcases List.mem_cons.mp hs with rfl | hs
        · rcases List.mem_cons.mp hc with rfl | hc
          · exact List.mem_cons_self c rest
          · exact List.mem_cons_of_mem a (ih t (by rw [hsp]; simp) c hc)
        · exact List.mem_cons_of_mem a (ih s (by rw [hsp]; simp [hs]) c hc)

theorem dropWhile_append_ne {α : Type} (p : α → Bool) :
    ∀ (l₁ l₂ : List α), l₁.dropWhile p ≠ [] →
    (l₁ ++ l₂).dropWhile p = l₁.dropWhile p ++ l₂ := by
  intro l₁
  induction l₁ with
  | nil => intro l₂ h; simp [List.dropWhile] at h
  | cons a as ih =>
    intro l₂ h
    by_cases hp : p a = true
    · have hg : ((a :: as) ++ l₂).dropWhile p = (as ++ l₂).dropWhile p := by
        rw [List.cons_append, List.dropWhile_cons, if_pos hp]
      have hr : (a :: as).dropWhile p = as.dropWhile p := by
        rw [List.dropWhile_cons, if_pos hp]
      rw [hg, hr]
      exact ih l₂ (by rw [hr] at h; exact h)
    · have hg : ((a :: as) ++ l₂).dropWhile p = a :: (as ++ l₂) := by
        rw [List.cons_append, List.dropWhile_cons, if_neg hp]
      have hr : (a :: as).dropWhile p = a :: as := by
        rw [List.dropWhile_cons, if_neg hp]
      rw [hg, hr, List.cons_append]

theorem listStartsWith_mem : ∀ (p s : Str), listStartsWith p s = true → ∀ c ∈ p, c ∈ s := by
  intro p
  induction p with
  | nil => intro s _ c hc; simp at hc
  | cons a ps ih =>
    intro s h c hc
    rcases s with _ | ⟨b, cs⟩
    · simp [listStartsWith] at h
    · simp only [listStartsWith, Bool.and_eq_true, decide_eq_true_eq] at h
      rcases List.mem_cons.mp hc with rfl | hc
      · rw [h.1]; exact List.mem_cons_self b cs
      · exact List.mem_cons_of_mem b (ih cs h.2 c hc)

theorem containsSub_bracket_star : ∀ (s : Str), '*' ∉ s → containsSub s (str "[*]") = false := by
  intro s
  induction s with
  | nil => intro _; decide
  | cons a rest ih =>
    intro hns
    rw [containsSub]
    have h1 : listStartsWith (str "[*]") (a :: rest) = false := by
      by_contra hx
      have hx' : listStartsWith (str "[*]") (a :: rest) = true := by
        revert hx; cases listStartsWith (str "[*]") (a :: rest) <;> simp
      exact hns (listStartsWith_mem (str "[*]") (a :: rest) hx' '*' (by decide))
    rw [h1, ih (fun hmem => hns (List.mem_cons_of_mem a hmem))]
    rfl

theorem parseXPathToSegments_snoc (x seg : Str) (hx : x.dropWhile (· = '/') ≠ [])
    (hseg : seg ≠ []) (hns : '/' ∉ seg) :
    parseXPathToSegments (x ++ '/' :: seg) = parseXPathToSegments x ++ [seg] := by
  unfold parseXPathToSegments
  rw [dropWhile_append_ne _ x ('/' :: seg) hx, splitOnSlash_append,
      splitOnSlash_no_slash seg hns, List.filter_append]
  congr 1
  have : seg.length > 0 := List.length_pos.mpr hseg
  simp [this]

theorem mem_enumFrom_snd {α : Type} :
    ∀ (l : List α) (i : Nat) (x : Nat × α), x ∈ List.enumFrom i l → x.2 ∈ l := by
  intro l
  induction l with
  | nil => intro i x hx; simp [List.enumFrom] at hx
  | cons c cs ih =>
    intro i x hx
    simp only [List.enumFrom, List.mem_cons] at hx
    rcases hx with rfl | hx
    · exact List.mem_cons_self c cs
    · exact List.mem_cons_of_mem c (ih (i + 1) x hx)

theorem subtreeAt_append : ∀ (a b : Pos) (d : Dom),
    subtreeAt (a ++ b) d = (subtreeAt a d).bind (subtreeAt b) := by
  intro a
  induction a with
  | nil => intro b d; rfl
  | cons k a' ih =>
    intro b d
    simp only [List.cons_append, subtreeAt]
    rcases h : d.childrenOf[k]? with _ | c
    · rfl
    · exact ih b c

theorem cleanDomList_mem : ∀ (cs : List Dom) (c : Dom),
    cleanDomList cs = true → c ∈ cs → cleanDom c = true := by
  intro cs
  induction cs with
  | nil => intro c _ hc; simp at hc
  | cons d ds ih =>
    intro c hcl hc
    rw [cleanDomList] at hcl
    simp only [Bool.and_eq_true] at hcl
    rcases List.mem_cons.mp hc with rfl | hc
    · exact hcl.1
    · exact ih c hcl.2 hc

theorem mem_of_getElem_opt {α : Type} :
    ∀ (l : List α) (i : Nat) (a : α), l[i]? = some a → a ∈ l := by
  intro l
  induction l with
  | nil => intro i a h; simp at h
  | cons b bs ih =>
    intro i a h
    cases i with
    | zero =>
      have hb : b = a := by simpa using h
      subst hb
      exact List.mem_cons_self b bs
    | succ j => exact List.mem_cons_of_mem b (ih j a (by simpa using h))

theorem cleanDom_subtreeAt : ∀ (q : Pos) (d e : Dom),
    cleanDom d = true → subtreeAt q d = some e → cleanDom e = true := by
  intro q
  induction q with
  | nil =>
    intro d e hc h
    have : d = e := by simpa [subtreeAt] using h
    exact this ▸ hc
  | cons k q' ih =>
    intro d e hc h
    rw [subtreeAt] at h
    rcases hk : d.childrenOf[k]? with _ | c
    · rw [hk] at h; exact absurd h (by simp)
    · rw [hk] at h
      have hcc : cleanDom c = true := by
        cases d with
        | mk t i x cs =>
          rw [cleanDom] at hc
          simp only [Bool.and_eq_true] at hc
          simp only [Dom.childrenOf] at hk
          exact cleanDomList_mem cs c hc.2 (mem_of_getElem_opt cs k c hk)
      exact ih c e hcc h

theorem tagLower_clean {d : Dom} (h : cleanDom d = true) :
    tagLower d ≠ [] ∧ (tagLower d).all tagChar = true := by
  cases d with
  | mk t i x cs =>
    rw [cleanDom] at h
    simp only [Bool.and_eq_true] at h
    have hct := h.1
    rw [cleanTagB] at hct
    simp only [Bool.and_eq_true] at hct
    constructor
    · simp only [tagLower, Dom.tagOf]
      intro hcon
      have ht : t = [] := by simpa using hcon
      rw [ht] at hct
      simp [List.isEmpty] at hct
    · simp only [tagLower, Dom.tagOf, List.all_map]
      have := hct.2
      simpa [Function.comp] using this

theorem tagChar_ne_star {c : Char} (h : tagChar c = true) : c ≠ '*' := by
  rintro rfl; exact absurd h (by decide)

theorem tagChar_ne_slash {c : Char} (h : tagChar c = true) : c ≠ '/' := by
  rintro rfl; exact absurd h (by decide)

theorem evalPathCtx_append (doc : Doc) : ∀ (σ τ : List Seg) (ctx : Ctx) (p : Pos),
    evalPathCtx doc σ ctx = some p →
    evalPathCtx doc (σ ++ τ) ctx = evalPathCtx doc τ (some p) := by
  intro σ
  induction σ with
  | nil =>
    intro τ ctx p h
    rw [evalPathCtx] at h
    rw [List.nil_append, h]
  | cons sg σ' ih =>
    intro τ ctx p h
    rw [evalPathCtx] at h
    rcases hs : evalStep doc ctx sg with _ | q
    · rw [hs] at h; exact absurd h (by simp)
    · rw [hs] at h
      rw [List.cons_append, evalPathCtx, hs]
      exact ih τ (some q) p h

theorem countSameTagBefore_zero (cs : List Dom) (tn : Str) :
    countSameTagBefore cs 0 tn = 0 := by
  simp [countSameTagBefore]

theorem countSameTagBefore_succ (c : Dom) (cs : List Dom) (k : Nat) (tn : Str) :
    countSameTagBefore (c :: cs) (k + 1) tn =
      (if tagLower c = tn then 1 else 0) + countSameTagBefore cs k tn := by
  by_cases h : tagLower c = tn
  · simp [countSameTagBefore, List.take_succ_cons, List.filter_cons, h]
    omega
  · simp [countSameTagBefore, List.take_succ_cons, List.filter_cons, h]

theorem nthMatchingFrom_count (tn : Str) :
    ∀ (cs : List Dom) (off cnt k : Nat) (el : Dom) (f : Nat → Pos) (t : Nat),
    cs[k]? = some el → tagLower el = tn →
    t = cnt + countSameTagBefore cs k tn + 1 →
    nthMatchingFrom tn t ((List.enumFrom off cs).map (fun jc => (f jc.1, jc.2))) cnt =
      some (f (off + k)) := by
  intro cs
  induction cs with
  | nil => intro off cnt k el f t hk _ _; simp at hk
  | cons c cs' ih =>
    intro off cnt k el f t hk htag ht
    rw [List.enumFrom, List.map_cons, nthMatchingFrom]
    dsimp only
    cases k with
    | zero =>
      have hce : c = el := by simpa using hk
      rw [countSameTagBefore_zero] at ht
      rw [if_pos (hce ▸ htag), if_pos (by omega)]
      rw [Nat.add_zero]
    | succ k' =>
      have hk' : cs'[k']? = some el := by simpa using hk
      by_cases hc : tagLower c = tn
      · rw [countSameTagBefore_succ, if_pos hc] at ht
        rw [if_pos hc, if_neg (by omega)]
        have hrec := ih (off + 1) (cnt + 1) k' el f t hk' htag (by omega)
        have harg : off + 1 + k' = off + (k' + 1) := by omega
        rw [harg] at hrec
        exact hrec
      · rw [countSameTagBefore_succ, if_neg hc] at ht
        rw [if_neg hc]
        have hrec := ih (off + 1) cnt k' el f t hk' htag (by omega)
        have harg : off + 1 + k' = off + (k' + 1) := by omega
        rw [harg] at hrec
        exact hrec

theorem findIdx?_take_spec {α : Type} (p : α → Bool) :
    ∀ (l : List α) (st i : Nat), List.findIdx? p l st = some i →
    ∃ x, l[i - st]? = some x ∧ p x = true ∧ ∀ y ∈ l.take (i - st), p y = false := by
  intro l
  induction l with
  | nil => intro st i h; simp [List.findIdx?] at h
  | cons a as ih =>
    intro st i h
    rw [List.findIdx?] at h
    by_cases hp : p a = true
    · rw [if_pos hp] at h
      injection h with h
      subst h
      refine ⟨a, ?_, hp, ?_⟩
      · simp
      · intro y hy
        simp at hy
    · rw [if_neg hp] at h
      have hle : st + 1 ≤ i := (findIdx?_go_valid p as (st + 1) i h).1
      obtain ⟨x, hx, hpx, hall⟩ := ih (st + 1) i h
      have hi : i - st = (i - (st + 1)) + 1 := by omega
      refine ⟨x, ?_, hpx, ?_⟩
      · rw [hi]; simpa using hx
      · intro y hy
        rw [hi, List.take_succ_cons] at hy
        rcases List.mem_cons.mp hy with rfl | hy
        · exact Bool.not_eq_true _ ▸ (by revert hp; cases p y <;> simp)
        · exact hall y hy

theorem mem_dropWhile {α : Type} (p : α → Bool) :
    ∀ (l : List α) (x : α), x ∈ l.dropWhile p → x ∈ l := by
  intro l
  induction l with
  | nil => intro x hx; simp [List.dropWhile] at hx
  | cons a as ih =>
    intro x hx
    by_cases hp : p a = true
    · rw [List.dropWhile_cons, if_pos hp] at hx
      exact List.mem_cons_of_mem a (ih x hx)
    · rw [List.dropWhile_cons, if_neg hp] at hx
      exact hx

theorem evalPathCtx_nil (doc : Doc) (ctx : Ctx) : evalPathCtx doc [] ctx = ctx := rfl

theorem evalPathCtx_cons_some (doc : Doc) (sg : Seg) (rest : List Seg) (ctx : Ctx) (p : Pos)
    (h : evalStep doc ctx sg = some p) :
    evalPathCtx doc (sg :: rest) ctx = evalPathCtx doc rest (some p) := by
  have hc : evalPathCtx doc (sg :: rest) ctx =
      match evalStep doc ctx sg with
      | some q => evalPathCtx doc rest (some q)
      | none => none := rfl
  rw [hc, h]

theorem genAbsRev_spec (doc : Doc) (hclean : cleanDom doc.html = true)
    (hroot : tagLower doc.html = str "html") :
    ∀ (rp : List Nat) (el : Dom), subtreeAt rp.reverse doc.html = some el →
      (∃ t, genAbsRev doc doc.html true rp = str "/html" ++ t) ∧
      '*' ∉ genAbsRev doc doc.html true rp ∧
      evalPathCtx doc ((parseXPathToSegments (genAbsRev doc doc.html true rp)).map parseSegment)
        none = some rp.reverse := by
  intro rp
  induction rp with
  | nil =>
    intro el hsub
    have hbody : ¬ ((true = true) ∧ some ([] : Pos) = bodyPos doc) := by
      rintro ⟨-, hb⟩
      rcases hbi : bodyIdx doc with _ | i <;> rw [bodyPos, hbi] at hb <;> simp at hb
    have hS : genAbsRev doc doc.html true [] = str "/html" := by
      rw [genAbsRev, if_neg hbody, if_pos rfl]
    refine ⟨⟨[], by rw [hS, List.append_nil]⟩, by rw [hS]; decide, ?_⟩
    rw [hS]
    have hseg : (parseXPathToSegments (str "/html")).map parseSegment =
        [⟨str "html", none, none⟩] := rfl
    rw [hseg]
    have hstep : evalStep doc none ⟨str "html", none, none⟩ = some [] := by
      show nthMatchingFrom (str "html") 1 [(([] : Pos), doc.html)] 0 = some []
      rw [nthMatchingFrom]
      dsimp only
      rw [if_pos hroot, if_pos rfl]
    rw [evalPathCtx_cons_some doc _ _ none [] hstep, evalPathCtx_nil, List.reverse_nil]
  | cons k rp' ih =>
    intro el hsub
    have hsub0 := hsub
    rw [List.reverse_cons, subtreeAt_append] at hsub
    rcases hpar : subtreeAt rp'.reverse doc.html with _ | parent
    · rw [hpar] at hsub; exact absurd hsub (by simp)
    · rw [hpar] at hsub
      have hsub2 : subtreeAt [k] parent = some el := hsub
      rw [subtreeAt] at hsub2
      rcases hk : parent.childrenOf[k]? with _ | c
      · rw [hk] at hsub2; exact absurd hsub2 (by simp)
      · rw [hk] at hsub2
        have hce : el = c := by symm; simpa [subtreeAt] using hsub2
        subst hce
        obtain ⟨⟨t0, hpre⟩, hstar, heval⟩ := ih parent hpar
        by_cases hb : some ((k :: rp') : List Nat).reverse = bodyPos doc
        · have hS : genAbsRev doc doc.html true (k :: rp') = str "/html/body" := by
            rw [genAbsRev, if_pos ⟨rfl, hb⟩]
          rcases hbi : bodyIdx doc with _ | bi
          · rw [bodyPos, hbi] at hb; simp at hb
          · have hbik : ((k :: rp') : List Nat).reverse = [bi] := by
              rw [bodyPos, hbi] at hb
              simpa using hb
            have hfi : List.findIdx? (fun c => tagLower c = str "body")
                doc.html.childrenOf 0 = some bi := hbi
            obtain ⟨x, hx, hpx, htake⟩ := findIdx?_take_spec _ _ _ _ hfi
            simp only [Nat.sub_zero] at hx htake
            have htx : tagLower x = str "body" := of_decide_eq_true hpx
            have hcnt : countSameTagBefore doc.html.childrenOf bi (str "body") = 0 := by
              unfold countSameTagBefore
              have hfil : (doc.html.childrenOf.take bi).filter
                  (fun s => tagLower s = str "body") = [] := by
                apply List.filter_eq_nil_iff.mpr
                intro a ha
                have := htake a ha
                simpa using this
              rw [hfil]
              rfl
            refine ⟨⟨str "/body", by rw [hS]; rfl⟩, by rw [hS]; decide, ?_⟩
            rw [hS]
            have hseg : (parseXPathToSegments (str "/html/body")).map parseSegment =
                [⟨str "html", none, none⟩, ⟨str "body", none, none⟩] := rfl
            rw [hseg]
            have hstep1 : evalStep doc none ⟨str "html", none, none⟩ = some [] := by
              show nthMatchingFrom (str "html") 1 [(([] : Pos), doc.html)] 0 = some []
              rw [nthMatchingFrom]
              dsimp only
              rw [if_pos hroot, if_pos rfl]
            rw [evalPathCtx_cons_some doc _ _ none [] hstep1]
            have hstep2 : evalStep doc (some ([] : Pos)) ⟨str "body", none, none⟩ =
                some [bi] := by
              show nthMatchingFrom (str "body") 1 (ctxChildren doc (some ([] : Pos))) 0 =
                some [bi]
              have hcc : ctxChildren doc (some ([] : Pos)) =
                  doc.html.childrenOf.enum.map (fun jc => (([] : Pos) ++ [jc.1], jc.2)) := rfl
              rw [hcc]
              have h2 := nthMatchingFrom_count (str "body") doc.html.childrenOf 0 0 bi x
                (fun j => ([] : Pos) ++ [j]) 1 hx htx (by rw [hcnt])
              rw [Nat.zero_add] at h2
              exact h2
            rw [evalPathCtx_cons_some doc _ _ (some ([] : Pos)) [bi] hstep2,
               evalPathCtx_nil, hbik]
        · have hS : genAbsRev doc doc.html true (k :: rp') =
              genAbsRev doc doc.html true rp' ++
                '/' :: (tagLower el ++ '[' ::
                  natToStr (1 + countSameTagBefore parent.childrenOf k (tagLower el)) ++
                  [']']) := by
            rw [genAbsRev, if_neg (fun hcon => hb hcon.2), hpar]
            dsimp only
            rw [hk]
          have hcel : cleanDom el = true :=
            cleanDom_subtreeAt ((k :: rp') : List Nat).reverse doc.html el hclean hsub0
          obtain ⟨htnne, htnall⟩ := tagLower_clean hcel
          have hre : (tagLower el ++ '[' ::
              natToStr (1 + countSameTagBefore parent.childrenOf k (tagLower el))) ++ [']'] =
              tagLower el ++ '[' ::
                (natToStr (1 + countSameTagBefore parent.childrenOf k (tagLower el)) ++ [']']) := by
            rw [List.append_assoc, List.cons_append]
          have hchunkseg : parseSegment ((tagLower el ++ '[' ::
              natToStr (1 + countSameTagBefore parent.childrenOf k (tagLower el))) ++ [']']) =
              ⟨tagLower el,
               some (1 + countSameTagBefore parent.childrenOf k (tagLower el)), none⟩ := by
            rw [hre]
            exact parseSegment_tagIdx _ _ htnne htnall
          refine ⟨⟨t0 ++ '/' :: (tagLower el ++ '[' ::
              natToStr (1 + countSameTagBefore parent.childrenOf k (tagLower el)) ++ [']']),
              ?_⟩, ?_, ?_⟩
          · rw [hS, hpre, List.append_assoc]
          · rw [hS]
            intro hmem
            rcases List.mem_append.mp hmem with hmem | hmem
            · exact hstar hmem
            · rcases List.mem_cons.mp hmem with heq | hmem
              · exact absurd heq (by decide)
              · rcases List.mem_append.mp hmem with hmem | hmem
                · rcases List.mem_append.mp hmem with hmem | hmem
                  · exact absurd (List.all_eq_true.mp htnall '*' hmem) (by decide)
                  · rcases List.mem_cons.mp hmem with heq | hmem
                    · exact absurd heq (by decide)
                    · exact absurd (natToStr_digits _ '*' hmem) (by decide)
                · rcases List.mem_cons.mp hmem with heq | hmem
                  · exact absurd heq (by decide)
                  · simp at hmem
          · rw [hS]
            have hxne : (genAbsRev doc doc.html true rp').dropWhile (· = '/') ≠ [] := by
              rw [hpre]
              rw [show str "/html" ++ t0 = '/' :: 'h' :: (str "tml" ++ t0) from rfl]
              simp [List.dropWhile_cons]
            have hchne : (tagLower el ++ '[' ::
                natToStr (1 + countSameTagBefore parent.childrenOf k (tagLower el))) ++ [']'] ≠
                [] := by simp
            have hchns : '/' ∉ (tagLower el ++ '[' ::
                natToStr (1 + countSameTagBefore parent.childrenOf k (tagLower el))) ++ [']'] := by
              intro hmem
              rcases List.mem_append.mp hmem with hmem | hmem
              · rcases List.mem_append.mp hmem with hmem | hmem
                · exact absurd (List.all_eq_true.mp htnall '/' hmem) (by decide)
                · rcases List.mem_cons.mp hmem with heq | hmem
                  · exact absurd heq (by decide)
                  · exact absurd (natToStr_digits _ '/' hmem) (by decide)
              · rcases List.mem_cons.mp hmem with heq | hmem
                · exact absurd heq (by decide)
                · simp at hmem
            rw [parseXPathToSegments_snoc _ _ hxne hchne hchns]
            rw [List.map_append]
            rw [evalPathCtx_append doc _ _ none rp'.reverse heval]
            rw [List.map_cons, List.map_nil, hchunkseg]
            have hstep : evalStep doc (some rp'.reverse)
                ⟨tagLower el,
                 some (1 + countSameTagBefore parent.childrenOf k (tagLower el)), none⟩ =
                some (rp'.reverse ++ [k]) := by
              show nthMatchingFrom (tagLower el)
                (1 + countSameTagBefore parent.childrenOf k (tagLower el))
                (ctxChildren doc (some rp'.reverse)) 0 = some (rp'.reverse ++ [k])
              have hcc : ctxChildren doc (some rp'.reverse) =
                  parent.childrenOf.enum.map (fun jc => (rp'.reverse ++ [jc.1], jc.2)) := by
                rw [ctxChildren, hpar]
              rw [hcc]
              have h2 := nthMatchingFrom_count (tagLower el) parent.childrenOf 0 0 k el
                (fun j => rp'.reverse ++ [j])
                (1 + countSameTagBefore parent.childrenOf k (tagLower el)) hk rfl (by omega)
              rw [Nat.zero_add] at h2
              exact h2
            rw [evalPathCtx_cons_some doc _ _ (some rp'.reverse) (rp'.reverse ++ [k]) hstep,
               evalPathCtx_nil, List.reverse_cons]

/-- C2: canonical-path round-trip — for every element attached to the document
tree of a document whose root is an `html` element with regex-clean tag names,
generating its canonical absolute XPath with generateAbsoluteXPath and then
resolving that degenerate zero-wildcard pattern with findMatchingElements
returns exactly that one element. -/
theorem canonicalPath_resolve_roundTrip (doc : Doc) (p : Pos)
    (hclean : cleanDom doc.html = true)
    (hroot : tagLower doc.html = str "html")
    (hvalid : (subtreeAt p doc.html).isSome = true) :
    findMatchingElements doc (some (generateAbsoluteXPath doc (attachedRef doc p))) = [p] := by
  obtain ⟨el, hel⟩ := Option.isSome_iff_exists.mp hvalid
  have hsub : subtreeAt (p.reverse).reverse doc.html = some el := by
    rw [List.reverse_reverse]; exact hel
  obtain ⟨⟨t0, hpre⟩, hstar, heval⟩ := genAbsRev_spec doc hclean hroot p.reverse el hsub
  rw [List.reverse_reverse] at heval
  have hgen : generateAbsoluteXPath doc (attachedRef doc p) =
      genAbsRev doc doc.html true p.reverse := rfl
  rw [hgen]
  have hne : ¬ genAbsRev doc doc.html true p.reverse = [] := by
    rw [hpre]
    rw [show str "/html" ++ t0 = '/' :: (str "html" ++ t0) from rfl]
    simp
  have hwfalse : ∀ isg ∈ (parseXPathToSegments (genAbsRev doc doc.html true p.reverse)).enum,
      containsSub isg.2 (str "[*]") = false := by
    intro isg hisg
    have hseg : isg.2 ∈ parseXPathToSegments (genAbsRev doc doc.html true p.reverse) :=
      mem_enumFrom_snd _ 0 isg hisg
    apply containsSub_bracket_star
    intro hm
    apply hstar
    have h1 : isg.2 ∈
        splitOnSlash ((genAbsRev doc doc.html true p.reverse).dropWhile (· = '/')) := by
      have h0 := hseg
      unfold parseXPathToSegments at h0
      exact (List.mem_filter.mp h0).1
    exact mem_dropWhile _ _ '*' (mem_splitOnSlash_sub _ _ h1 '*' hm)
  have hwild : ((parseXPathToSegments (genAbsRev doc doc.html true p.reverse)).enum.filter
      (fun isg => containsSub isg.2 (str "[*]"))).map (fun isg => isg.1) = ([] : List Nat) := by
    rw [List.map_eq_nil_iff]
    apply List.filter_eq_nil_iff.mpr
    intro a ha
    simp [hwfalse a ha]
  unfold findMatchingElements
  dsimp only
  rw [if_neg hne, hwild]
  rw [if_pos (show (([] : List Nat)).length = 0 from rfl)]
  rcases hsegs : parseXPathToSegments (genAbsRev doc doc.html true p.reverse) with _ | ⟨s0, ss⟩
  · rw [hsegs, List.map_nil, evalPathCtx_nil] at heval
    exact absurd heval (by simp)
  · unfold evaluateAbsoluteXPath
    dsimp only
    rw [hsegs, List.map_cons]
    dsimp only
    rw [hsegs, List.map_cons] at heval
    rw [heval]

/-- Witness: the C2 round-trip at the concrete table document and the second
td cell of its first row. -/
theorem canonicalPath_resolve_roundTrip_witness :
    cleanDom tableDoc.html = true ∧ tagLower tableDoc.html = str "html" ∧
    (subtreeAt [0, 0, 0, 1] tableDoc.html).isSome = true ∧
    findMatchingElements tableDoc
      (some (generateAbsoluteXPath tableDoc (attachedRef tableDoc [0, 0, 0, 1]))) =
      [[0, 0, 0, 1]] :=
  ⟨by decide, by decide, by decide,
    canonicalPath_resolve_roundTrip tableDoc [0, 0, 0, 1] (by decide) (by decide) (by decide)⟩
